import Mathlib

/-!
# LiteRAG.js core — shallow embedding and verification

This file embeds the algorithmic core of the LiteRAG.js repository in Lean 4
and proves (or refutes) the specification claims about it.  Text is modelled
as `List Char`, JavaScript numbers that only ever hold integers as `Nat`/`Int`,
and floating-point relevance scores as `ℚ` (no float rounding is modelled; none
of the verified properties depends on rounding).  Stateful classes are modelled
by explicit state passing; `Date.now()` is an explicit `now : Nat` argument
(milliseconds).  JavaScript's built-in stable `Array.prototype.sort` is
modelled by a stable insertion sort, which computes the same function.

Embedded sources:
* `src/ingestion/splitters.ts` — `RecursiveCharacterTextSplitter`,
  `FixedSizeTextSplitter`
* `src/core/cache.ts` — `InMemoryCache`
* `src/vector-store/filters/qdrant-filter.ts` — `toQdrantFilter`
* the OpenSearch filter module — `toOpenSearchFilter`
* the reranker module — `KeywordReranker`, `RRFReranker`
* `src/api/server.ts` — the `/query` handler's cache key
-/

namespace LiteRAG

/-! ## Basic JavaScript string helpers -/

/-- The whitespace characters relevant to `String.prototype.trim` and the
`\s` regex class for the inputs of this development (ASCII whitespace). -/
def isJsWs (c : Char) : Bool :=
  c = ' ' || c = '\t' || c = '\n' || c = '\r' || c = '\x0b' || c = '\x0c'

/-- `String.prototype.trim`: drop leading and trailing whitespace. -/
def jsTrim (s : List Char) : List Char :=
  ((s.dropWhile isJsWs).reverse.dropWhile isJsWs).reverse

/-- ASCII lower-casing, the fragment of `String.prototype.toLowerCase`
exercised here. -/
def jsToLower (c : Char) : Char :=
  if 'A' ≤ c ∧ c ≤ 'Z' then Char.ofNat (c.toNat + 32) else c

/-- `String.prototype.slice(start, stop)` with JavaScript index clamping
(negative indices count from the end). -/
def jsSlice (s : List Char) (start stop : Int) : List Char :=
  let len : Int := s.length
  let norm : Int → Int := fun i => if i < 0 then max (len + i) 0 else min i len
  ((s.take (norm stop).toNat).drop (norm start).toNat)

/-! ## `FixedSizeTextSplitter` (src/ingestion/splitters.ts, lines 119–130)

```ts
splitText(text: string): string[] {
    const chunks: string[] = [];
    let start = 0;
    while (start < text.length) {
        const end = Math.min(start + this.chunkSize, text.length);
        chunks.push(text.slice(start, end));
        start += this.chunkSize - this.chunkOverlap;
    }
    return chunks;
}
```

The `while` loop is modelled with fuel: `none` means the loop has *not*
terminated within `fuel` iterations, so `(∀ fuel, … = none)` states that the
loop runs forever. -/

/-- Fuelled unfolding of the `while (start < text.length)` loop of
`FixedSizeTextSplitter.splitText`.  `start` is an `Int` because
`chunkSize - chunkOverlap` can be negative in JavaScript. -/
def fixedSplitLoop (chunkSize chunkOverlap : Nat) (text : List Char) :
    Nat → Int → Option (List (List Char))
  | 0, _ => none
  | fuel + 1, start =>
    if start < (text.length : Int) then
      let stop := min (start + (chunkSize : Int)) (text.length : Int)
      match fixedSplitLoop chunkSize chunkOverlap text fuel
          (start + (chunkSize : Int) - (chunkOverlap : Int)) with
      | none => none
      | some rest => some (jsSlice text start stop :: rest)
    else
      some []

/-- `FixedSizeTextSplitter.splitText`, fuelled. -/
def fixedSplitText (chunkSize chunkOverlap : Nat) (text : List Char)
    (fuel : Nat) : Option (List (List Char)) :=
  fixedSplitLoop chunkSize chunkOverlap text fuel 0

lemma fixedSplitLoop_none_of_nonpos (chunkSize chunkOverlap : Nat)
    (text : List Char) (hov : chunkSize ≤ chunkOverlap) (hne : text ≠ []) :
    ∀ (fuel : Nat) (start : Int), start ≤ 0 →
      fixedSplitLoop chunkSize chunkOverlap text fuel start = none := by
  intro fuel
  induction fuel with
  | zero => intro start _; rfl
  | succ n ih =>
    intro start hstart
    have hlen : 0 < text.length := List.length_pos.mpr hne
    have hlt : start < (text.length : Int) := by
      have : (0 : Int) < (text.length : Int) := by exact_mod_cast hlen
      omega
    have hrec : fixedSplitLoop chunkSize chunkOverlap text n
        (start + (chunkSize : Int) - (chunkOverlap : Int)) = none := by
      apply ih
      have : (chunkSize : Int) ≤ (chunkOverlap : Int) := by exact_mod_cast hov
      omega
    simp only [fixedSplitLoop, if_pos hlt, hrec]

/-- **C1** (code bug).  The specification requires `FixedSizeTextSplitter` to
treat a non-positive stride (`chunkOverlap ≥ chunkSize`) as a configuration
error and fail fast, and requires `splitText` to terminate on every input.
The implementation has no such guard: whenever `chunkSize ≤ chunkOverlap` and
the text is non-empty, the window start never advances past 0, so the `while`
loop never exits — no fuel suffices. -/
theorem fixedSplitText_diverges_on_nonpositive_stride
    (chunkSize chunkOverlap : Nat) (text : List Char)
    (hov : chunkSize ≤ chunkOverlap) (hne : text ≠ []) :
    ∀ fuel, fixedSplitText chunkSize chunkOverlap text fuel = none := by
  intro fuel
  exact fixedSplitLoop_none_of_nonpos chunkSize chunkOverlap text hov hne fuel 0
    le_rfl

/-- Witness for C1 at chunkSize = 2, chunkOverlap = 2, text `"ab"`. -/
theorem fixedSplitText_diverges_witness :
    2 ≤ 2 ∧ (['a', 'b'] : List Char) ≠ [] ∧
      ∀ fuel, fixedSplitText 2 2 ['a', 'b'] fuel = none :=
  ⟨le_rfl, by decide,
    fixedSplitText_diverges_on_nonpositive_stride 2 2 ['a', 'b'] le_rfl
      (by decide)⟩

/-! ## `InMemoryCache` (src/core/cache.ts)

The JavaScript `Map<string, {value, expiry?}>` is modelled as an association
list in insertion order; `Map.set` overwrites in place or appends, `Map.delete`
removes the entry, `Map.size` is the length. -/

/-- One stored cache entry: the value and the optional absolute expiry
timestamp (ms); `none` models the `undefined` expiry. -/
structure CacheEntry (V : Type) where
  value : V
  expiry : Option Nat
  deriving Repr, DecidableEq

/-- The `Map` state of an `InMemoryCache`. -/
abbrev CacheState (V : Type) : Type := List (String × CacheEntry V)

/-- `Map.set`: overwrite the entry for `k` in place if present, else append. -/
def mapSet {V : Type} (m : CacheState V) (k : String) (e : CacheEntry V) :
    CacheState V :=
  if m.any (fun p => p.1 = k) then
    m.map (fun p => if p.1 = k then (k, e) else p)
  else
    m ++ [(k, e)]

/-- `InMemoryCache.set(key, value, ttl?)`: `ttl ? Date.now() + ttl * 1000
: undefined` — note that the expiry is computed only when `ttl` is *truthy*,
so `ttl = 0` stores no expiry. -/
def cacheSet {V : Type} (m : CacheState V) (key : String) (v : V)
    (ttl : Option Nat) (now : Nat) : CacheState V :=
  let expiry : Option Nat :=
    match ttl with
    | some t => if 0 < t then some (now + t * 1000) else none
    | none => none
  mapSet m key ⟨v, expiry⟩

/-- `InMemoryCache.get(key)`: returns the value unless the entry is absent or
`item.expiry && Date.now() > item.expiry`; an expired entry is deleted as a
side effect.  Returns the result and the possibly-updated state. -/
def cacheGet {V : Type} (m : CacheState V) (key : String) (now : Nat) :
    Option V × CacheState V :=
  match m.find? (fun p => p.1 = key) with
  | none => (none, m)
  | some (_, e) =>
    match e.expiry with
    | some exp =>
      if exp ≠ 0 ∧ exp < now then (none, m.eraseP (fun p => p.1 = key))
      else (some e.value, m)
    | none => (some e.value, m)

/-- `InMemoryCache.delete(key)`. -/
def cacheDelete {V : Type} (m : CacheState V) (key : String) : CacheState V :=
  m.eraseP (fun p => p.1 = key)

/-- `InMemoryCache.size()`. -/
def cacheSize {V : Type} (m : CacheState V) : Nat := m.length

lemma find?_mapSet_self {V : Type} (m : CacheState V) (k : String)
    (e : CacheEntry V) :
    (mapSet m k e).find? (fun p => p.1 = k) = some (k, e) := by
  unfold mapSet
  by_cases h : m.any (fun p => p.1 = k)
  · simp only [if_pos h]
    induction m with
    | nil => simp at h
    | cons p rest ih =>
      by_cases hp : p.1 = k
      · simp [List.find?_cons, hp]
      · have h' : rest.any (fun q => q.1 = k) := by
          simp only [List.any_cons] at h
          rcases Bool.or_eq_true_iff.mp h with h1 | h2
          · exact absurd (by simpa using h1) hp
          · exact h2
        simpa [List.find?_cons, hp] using ih h'
  · simp only [if_neg h]
    induction m with
    | nil => simp [List.find?]
    | cons p rest ih =>
      have hp : ¬ p.1 = k := by
        intro hk
        exact h (by simp [List.any_cons, hk])
      have h' : ¬ rest.any (fun q => q.1 = k) := by
        intro hk
        exact h (by simp [List.any_cons, hk])
      simpa [List.find?_cons, hp] using ih h'

lemma length_mapSet_of_mem {V : Type} (m : CacheState V) (k : String)
    (e : CacheEntry V) (h : m.any (fun p => p.1 = k)) :
    (mapSet m k e).length = m.length := by
  unfold mapSet
  simp [if_pos h]

lemma keys_mapSet {V : Type} (m : CacheState V) (k : String) (e : CacheEntry V) :
    (mapSet m k e).map Prod.fst =
      if m.any (fun p => p.1 = k) then m.map Prod.fst
      else m.map Prod.fst ++ [k] := by
  unfold mapSet
  by_cases h : m.any (fun p => p.1 = k)
  · simp only [if_pos h, List.map_map]
    congr 1
    funext p
    by_cases hp : p.1 = k <;> simp [hp, Function.comp]
  · simp [if_neg h]

lemma nodup_keys_mapSet {V : Type} (m : CacheState V) (k : String)
    (e : CacheEntry V) (h : (m.map Prod.fst).Nodup) :
    ((mapSet m k e).map Prod.fst).Nodup := by
  rw [keys_mapSet]
  by_cases hany : m.any (fun p => p.1 = k)
  · simpa [hany] using h
  · have hk : k ∉ m.map Prod.fst := by
      intro hmem
      rcases List.mem_map.mp hmem with ⟨p, hp, hpk⟩
      exact absurd (List.any_eq_true.mpr ⟨p, hp, by simpa using hpk⟩) hany
    simp only [if_neg hany]
    exact List.Nodup.append h (List.nodup_singleton k)
      (by simpa [List.disjoint_singleton] using hk)

lemma find?_eraseP_of_nodup_keys {V : Type} (m : CacheState V) (k : String)
    (h : (m.map Prod.fst).Nodup) :
    (m.eraseP (fun p => p.1 = k)).find? (fun p => p.1 = k) = none := by
  induction m with
  | nil => rfl
  | cons p rest ih =>
    have hmap : ((p :: rest).map Prod.fst) = p.1 :: rest.map Prod.fst := rfl
    rw [hmap, List.nodup_cons] at h
    obtain ⟨hp1, hrest⟩ := h
    by_cases hp : p.1 = k
    · rw [List.eraseP_cons_of_pos (by simpa using hp)]
      rw [List.find?_eq_none]
      intro q hq hqk
      exact hp1 (by
        subst hp
        exact List.mem_map.mpr ⟨q, hq, by simpa using hqk⟩)
    · rw [List.eraseP_cons_of_neg (by simpa using hp)]
      simpa [List.find?_cons, hp] using ih hrest

/-- **C5** (confirmed).  After `set(k, v, ttl)` with a positive `ttl`:
`get(k)` returns `v` while `now' ≤ expiry`; once the expiry has passed
(`expiry < now'`), `get(k)` returns `null`, removes the entry (a later lookup
misses) and the size drops by one; and `set` with `ttl` omitted stores an
entry that never expires. -/
theorem cacheGet_set_ttl_semantics {V : Type} (m : CacheState V) (k : String)
    (v : V) (t now now' : Nat) (hnodup : (m.map Prod.fst).Nodup)
    (ht : 0 < t) :
    (now' ≤ now + t * 1000 →
      cacheGet (cacheSet m k v (some t) now) k now' =
        (some v, cacheSet m k v (some t) now)) ∧
    (now + t * 1000 < now' →
      (cacheGet (cacheSet m k v (some t) now) k now').1 = none ∧
      ((cacheGet (cacheSet m k v (some t) now) k now').2).find?
          (fun p => p.1 = k) = none ∧
      cacheSize ((cacheGet (cacheSet m k v (some t) now) k now').2) =
        cacheSize (cacheSet m k v (some t) now) - 1) ∧
    (∀ n, cacheGet (cacheSet m k v none now) k n =
      (some v, cacheSet m k v none now)) := by
  have hset : cacheSet m k v (some t) now =
      mapSet m k ⟨v, some (now + t * 1000)⟩ := by
    unfold cacheSet
    simp [ht]
  have hfind := find?_mapSet_self m k (⟨v, some (now + t * 1000)⟩ : CacheEntry V)
  have hexp0 : now + t * 1000 ≠ 0 := by positivity
  refine ⟨?_, ?_, ?_⟩
  · intro hle
    rw [hset]
    unfold cacheGet
    rw [hfind]
    simp only
    rw [if_neg (by omega)]
  · intro hlt
    have hnodup' := nodup_keys_mapSet m k
      (⟨v, some (now + t * 1000)⟩ : CacheEntry V) hnodup
    have hmem : (k, (⟨v, some (now + t * 1000)⟩ : CacheEntry V)) ∈
        mapSet m k ⟨v, some (now + t * 1000)⟩ :=
      List.mem_of_find?_eq_some hfind
    rw [hset]
    unfold cacheGet
    rw [hfind]
    simp only
    rw [if_pos (by exact ⟨hexp0, hlt⟩)]
    refine ⟨rfl, ?_, ?_⟩
    · exact find?_eraseP_of_nodup_keys _ k hnodup'
    · exact List.length_eraseP_of_mem hmem (by simp)
  · intro n
    have hset' : cacheSet m k v none now = mapSet m k ⟨v, none⟩ := rfl
    rw [hset']
    unfold cacheGet
    rw [find?_mapSet_self m k (⟨v, none⟩ : CacheEntry V)]

/-- Witness for C5 at a concrete cache, key, value, ttl and clock values. -/
theorem cacheGet_set_ttl_semantics_witness :
    (([] : CacheState Nat).map Prod.fst).Nodup ∧ 0 < 1 ∧
      ((500 ≤ 0 + 1 * 1000 →
        cacheGet (cacheSet ([] : CacheState Nat) "k" 7 (some 1) 0) "k" 500 =
          (some 7, cacheSet ([] : CacheState Nat) "k" 7 (some 1) 0)) ∧
      (0 + 1 * 1000 < 500 →
        (cacheGet (cacheSet ([] : CacheState Nat) "k" 7 (some 1) 0) "k" 500).1
            = none ∧
        ((cacheGet (cacheSet ([] : CacheState Nat) "k" 7 (some 1) 0) "k"
            500).2).find? (fun p => p.1 = "k") = none ∧
        cacheSize ((cacheGet (cacheSet ([] : CacheState Nat) "k" 7 (some 1) 0)
            "k" 500).2) =
          cacheSize (cacheSet ([] : CacheState Nat) "k" 7 (some 1) 0) - 1) ∧
      (∀ n, cacheGet (cacheSet ([] : CacheState Nat) "k" 7 none 0) "k" n =
        (some 7, cacheSet ([] : CacheState Nat) "k" 7 none 0))) :=
  ⟨List.nodup_nil, Nat.one_pos,
    cacheGet_set_ttl_semantics ([] : CacheState Nat) "k" 7 1 0 500
      List.nodup_nil Nat.one_pos⟩

/-- **C10** (confirmed).  `set(key, value, 0)` — `ttl` explicitly zero — takes
the falsy branch of `ttl ? Date.now() + ttl * 1000 : undefined`, so the stored
entry has no expiry timestamp and `get(key)` returns the value at every later
time: a zero ttl behaves as "never expires". -/
theorem cacheSet_zero_ttl_never_expires {V : Type} (m : CacheState V)
    (k : String) (v : V) (now now' : Nat) :
    cacheGet (cacheSet m k v (some 0) now) k now' =
      (some v, cacheSet m k v (some 0) now) := by
  have hset : cacheSet m k v (some 0) now = mapSet m k ⟨v, none⟩ := by
    unfold cacheSet
    simp
  rw [hset]
  unfold cacheGet
  rw [find?_mapSet_self m k (⟨v, none⟩ : CacheEntry V)]

/-! ## The unified `MetadataFilter` and the two dialect compilers

`MetadataFilter` (src/core/types.ts) is a recursive record of optional arms.
JavaScript objects iterate in insertion order, so each object-valued arm is a
list of pairs; `none` models an absent field, `some []` a present-but-empty
object (still truthy for the `if (filter.equals)`-style checks).  For the
`and`/`or` arms the code guards with `filter.and && filter.and.length > 0`,
under which an absent arm and a present empty array are observationally
identical in both compilers, so they are modelled by one plain list (with `[]`
for "absent or empty"). -/

/-- A pre-validated filter scalar (string, number or boolean). -/
inductive Value where
  | s (v : String)
  | i (v : Int)
  | b (v : Bool)
  deriving Repr, DecidableEq

mutual
/-- `MetadataFilter` from src/core/types.ts. -/
inductive MetadataFilter where
  | mk (equals : Option (List (String × Value)))
      (greaterThan lessThan greaterThanOrEqual lessThanOrEqual :
        Option (List (String × Int)))
      (inArm : Option (List (String × List Value)))
      (andArm orArm : FilterList)
      (notArm : Option MetadataFilter)

/-- A list of sub-filters (the `and`/`or` arms), as a spine so that the
compilers become structural mutual recursions. -/
inductive FilterList where
  | nil
  | cons (head : MetadataFilter) (tail : FilterList)
end

/-- The underlying `List` of a `FilterList`. -/
def FilterList.toList : FilterList → List MetadataFilter
  | .nil => []
  | .cons f t => f :: t.toList

/-- The filter with no arms set. -/
def emptyFilter : MetadataFilter :=
  .mk none none none none none none .nil .nil none

/-- A Qdrant `range` condition body. -/
structure QRange where
  gt : Option Int := none
  gte : Option Int := none
  lt : Option Int := none
  lte : Option Int := none
  deriving Repr, DecidableEq

/-- A node of the Qdrant filter format: either a leaf condition
(`{key, match?, range?}`) or a nested filter (`{must?, should?, must_not?}`).
`toQdrantFilter` always returns a `filt` node. -/
inductive QNode where
  | cond (key : String) (mtch : Option Value) (rng : Option QRange)
  | filt (must should mustNot : Option (List QNode))
  deriving Repr

/-- The `equals` arm: one match clause per field/value pair. -/
def qdrantEqualsClauses (entries : List (String × Value)) : List QNode :=
  entries.map (fun e => QNode.cond e.1 (some e.2) none)

/-- A range arm: one range clause per field/value pair. -/
def qdrantRangeClauses (mk : Int → QRange) (entries : List (String × Int)) :
    List QNode :=
  entries.map (fun e => QNode.cond e.1 none (some (mk e.2)))

/-- The `in` arm: Qdrant has no native membership operator, so a singleton
value set becomes one match clause and a larger set becomes a `should`-wrapped
OR of match clauses. -/
def qdrantInClauses (entries : List (String × List Value)) : List QNode :=
  entries.map (fun e =>
    match e.2.map (fun v => QNode.cond e.1 (some v) none) with
    | [c] => c
    | conds => QNode.filt none (some conds) none)

mutual
/-- `toQdrantFilter` (src/vector-store/filters/qdrant-filter.ts). -/
def toQdrantFilter : MetadataFilter → QNode
  | .mk equals gtA ltA gteA lteA inA andA orA notA =>
    let mustTouched := equals.isSome || gtA.isSome || ltA.isSome ||
      gteA.isSome || lteA.isSome || inA.isSome ||
      (match andA with | .nil => false | .cons _ _ => true)
    let mustList :=
      qdrantEqualsClauses (equals.getD []) ++
      qdrantRangeClauses (fun v => { gt := some v }) (gtA.getD []) ++
      qdrantRangeClauses (fun v => { lt := some v }) (ltA.getD []) ++
      qdrantRangeClauses (fun v => { gte := some v }) (gteA.getD []) ++
      qdrantRangeClauses (fun v => { lte := some v }) (lteA.getD []) ++
      qdrantInClauses (inA.getD []) ++
      toQdrantList andA
    QNode.filt
      (if mustTouched then some mustList else none)
      (match orA with
       | .nil => none
       | .cons f t => some (toQdrantList (.cons f t)))
      (match notA with
       | some f => some [toQdrantFilter f]
       | none => none)

/-- Compile each sub-filter of an `and`/`or` arm. -/
def toQdrantList : FilterList → List QNode
  | .nil => []
  | .cons f t => toQdrantFilter f :: toQdrantList t
end

/-- A range comparison operator of the OpenSearch query DSL. -/
inductive RangeOp where
  | gt | gte | lt | lte
  deriving Repr, DecidableEq

/-- A node of the OpenSearch/Elasticsearch query format: a `bool` object or a
`term`/`range`/`terms` leaf.  Metadata fields are namespaced by the
`metadata.` prefix in the leaf constructors' field argument. -/
inductive OSQuery where
  | boolq (must should mustNot : Option (List OSQuery))
      (minShouldMatch : Option Nat)
  | term (field : String) (v : Value)
  | range (field : String) (op : RangeOp) (v : Int)
  | terms (field : String) (vs : List Value)
  deriving Repr

/-- The `equals` arm: `{ term: { ["metadata." + key]: value } }` per pair. -/
def osEqualsClauses (entries : List (String × Value)) : List OSQuery :=
  entries.map (fun e => OSQuery.term ("metadata." ++ e.1) e.2)

/-- A range arm: `{ range: { ["metadata." + key]: { op: value } } }`. -/
def osRangeClauses (op : RangeOp) (entries : List (String × Int)) :
    List OSQuery :=
  entries.map (fun e => OSQuery.range ("metadata." ++ e.1) op e.2)

/-- The `in` arm: `{ terms: { ["metadata." + key]: values } }` per pair. -/
def osInClauses (entries : List (String × List Value)) : List OSQuery :=
  entries.map (fun e => OSQuery.terms ("metadata." ++ e.1) e.2)

mutual
/-- `toOpenSearchFilter` (the OpenSearch filter module). -/
def toOpenSearchFilter : MetadataFilter → OSQuery
  | .mk equals gtA ltA gteA lteA inA andA orA notA =>
    let mustTouched := equals.isSome || gtA.isSome || ltA.isSome ||
      gteA.isSome || lteA.isSome || inA.isSome ||
      (match andA with | .nil => false | .cons _ _ => true)
    let mustList :=
      osEqualsClauses (equals.getD []) ++
      osRangeClauses .gt (gtA.getD []) ++
      osRangeClauses .lt (ltA.getD []) ++
      osRangeClauses .gte (gteA.getD []) ++
      osRangeClauses .lte (lteA.getD []) ++
      osInClauses (inA.getD []) ++
      toOpenSearchList andA
    OSQuery.boolq
      (if mustTouched then some mustList else none)
      (match orA with
       | .nil => none
       | .cons f t => some (toOpenSearchList (.cons f t)))
      (match notA with
       | some f => some [toOpenSearchFilter f]
       | none => none)
      (match orA with
       | .nil => none
       | .cons _ _ => some 1)

/-- Compile each sub-filter of an `and`/`or` arm. -/
def toOpenSearchList : FilterList → List OSQuery
  | .nil => []
  | .cons f t => toOpenSearchFilter f :: toOpenSearchList t
end

lemma toQdrantList_eq_map : ∀ l : FilterList,
    toQdrantList l = l.toList.map toQdrantFilter
  | .nil => rfl
  | .cons f t => by
    simp [toQdrantList, FilterList.toList, toQdrantList_eq_map t]

lemma toOpenSearchList_eq_map : ∀ l : FilterList,
    toOpenSearchList l = l.toList.map toOpenSearchFilter
  | .nil => rfl
  | .cons f t => by
    simp [toOpenSearchList, FilterList.toList, toOpenSearchList_eq_map t]

/-- **C6** (confirmed).  Compiling the empty filter (no arms set) is defined in
both dialects and yields the empty, always-true clause: no `must`, `should` or
`must_not` conditions (and no `minimum_should_match`). -/
theorem empty_filter_compiles_to_match_all :
    toQdrantFilter emptyFilter = QNode.filt none none none ∧
    toOpenSearchFilter emptyFilter = OSQuery.boolq none none none none := by
  constructor <;> rfl

/-- **C7** (confirmed).  In the Qdrant (point-match) dialect, an `in` arm with
a single-element value set compiles to one match clause appended to the
enclosing `must` list, and one with two or more values compiles to a
`should`-wrapped list of one match clause per value, nested inside the
enclosing `must` list (shown with an arbitrary `equals` arm occupying the
front of the `must` list). -/
theorem qdrant_in_lowering (eq : Option (List (String × Value)))
    (key : String) (v : Value) (rest : List Value) :
    toQdrantFilter (.mk eq none none none none (some [(key, v :: rest)])
        .nil .nil none) =
      QNode.filt
        (some (qdrantEqualsClauses (eq.getD []) ++
          [if rest.isEmpty then QNode.cond key (some v) none
           else QNode.filt none
             (some ((v :: rest).map (fun w => QNode.cond key (some w) none)))
             none]))
        none none := by
  cases rest with
  | nil =>
    simp [toQdrantFilter, toQdrantList, qdrantInClauses, qdrantEqualsClauses,
      qdrantRangeClauses]
  | cons w ws =>
    simp [toQdrantFilter, toQdrantList, qdrantInClauses, qdrantEqualsClauses,
      qdrantRangeClauses]

/-- **C8** (confirmed).  For a filter whose `or` arm is a non-empty list of
children: the boolean-query dialect produces a `bool` whose `should` array
recursively compiles each child and sets `minimum_should_match = 1`, and the
point-match dialect produces a `should` array recursively compiling each
child; in both dialects the `should` array has exactly as many entries as the
`or` arm has children (so `Or` of two `Equals` yields `should` arrays of
length 2). -/
theorem or_compiles_to_should (f : MetadataFilter) (fs : FilterList) :
    toOpenSearchFilter (.mk none none none none none none .nil (.cons f fs)
        none) =
      OSQuery.boolq none
        (some (((FilterList.cons f fs).toList).map toOpenSearchFilter))
        none (some 1) ∧
    toQdrantFilter (.mk none none none none none none .nil (.cons f fs)
        none) =
      QNode.filt none
        (some (((FilterList.cons f fs).toList).map toQdrantFilter))
        none ∧
    (((FilterList.cons f fs).toList).map toOpenSearchFilter).length =
      (FilterList.cons f fs).toList.length ∧
    (((FilterList.cons f fs).toList).map toQdrantFilter).length =
      (FilterList.cons f fs).toList.length := by
  refine ⟨?_, ?_, by simp, by simp⟩
  · simp [toOpenSearchFilter, toOpenSearchList_eq_map]
  · simp [toQdrantFilter, toQdrantList_eq_map]

/-! ## Search results and the stable descending sort

`SearchResult` (src/core/types.ts) pairs a document with a relevance score.
JavaScript's `results.sort((a, b) => b.score - a.score)` is a stable sort that
orders by score descending, keeping input order between equal scores; it is
modelled by a stable insertion sort, which computes the same function. -/

/-- A document: optional id, content text and metadata. -/
structure Document where
  id : Option String := none
  content : List Char
  metadata : List (String × Value) := []
  deriving Repr, DecidableEq

/-- A search result: a document with a relevance score (floats modelled
as `ℚ`). -/
structure SearchResult where
  document : Document
  score : ℚ
  deriving Repr, DecidableEq

/-- Insert `x` (which came earlier in the input than every element of the
list) before the first element of score ≤ its own, so that elements of equal
score keep their input order. -/
def insertByScoreDesc (x : SearchResult) : List SearchResult →
    List SearchResult
  | [] => [x]
  | y :: ys =>
    if y.score ≤ x.score then x :: y :: ys else y :: insertByScoreDesc x ys

/-- Stable sort by score descending, the model of
`sort((a, b) => b.score - a.score)`. -/
def sortByScoreDesc : List SearchResult → List SearchResult
  | [] => []
  | x :: xs => insertByScoreDesc x (sortByScoreDesc xs)

lemma insertByScoreDesc_perm (x : SearchResult) (l : List SearchResult) :
    (insertByScoreDesc x l).Perm (x :: l) := by
  induction l with
  | nil => exact List.Perm.refl _
  | cons y ys ih =>
    unfold insertByScoreDesc
    by_cases h : y.score ≤ x.score
    · simp [h]
    · simp only [if_neg h]
      exact ((ih.cons y).trans (List.Perm.swap x y ys))

lemma sortByScoreDesc_perm (l : List SearchResult) :
    (sortByScoreDesc l).Perm l := by
  induction l with
  | nil => exact List.Perm.refl _
  | cons x xs ih =>
    exact (insertByScoreDesc_perm x (sortByScoreDesc xs)).trans (ih.cons x)

lemma insertByScoreDesc_sorted (x : SearchResult) (l : List SearchResult)
    (h : l.Pairwise (fun a b => b.score ≤ a.score)) :
    (insertByScoreDesc x l).Pairwise (fun a b => b.score ≤ a.score) := by
  induction l with
  | nil => simp [insertByScoreDesc]
  | cons y ys ih =>
    rcases List.pairwise_cons.mp h with ⟨hy, hys⟩
    unfold insertByScoreDesc
    by_cases hxy : y.score ≤ x.score
    · rw [if_pos hxy]
      refine List.pairwise_cons.mpr ⟨?_, h⟩
      intro z hz
      rcases List.mem_cons.mp hz with rfl | hz
      · exact hxy
      · exact le_trans (hy z hz) hxy
    · rw [if_neg hxy]
      refine List.pairwise_cons.mpr ⟨?_, ih hys⟩
      intro z hz
      have hperm := insertByScoreDesc_perm x ys
      rcases List.mem_cons.mp (hperm.mem_iff.mp hz) with rfl | hz
      · exact le_of_lt (lt_of_not_le hxy)
      · exact hy z hz

lemma sortByScoreDesc_sorted (l : List SearchResult) :
    (sortByScoreDesc l).Pairwise (fun a b => b.score ≤ a.score) := by
  induction l with
  | nil => simp [sortByScoreDesc]
  | cons x xs ih => exact insertByScoreDesc_sorted x _ ih

lemma sortByScoreDesc_of_strict_sorted (l : List SearchResult)
    (h : l.Pairwise (fun a b => b.score < a.score)) :
    sortByScoreDesc l = l := by
  induction l with
  | nil => rfl
  | cons x xs ih =>
    rcases List.pairwise_cons.mp h with ⟨hx, hxs⟩
    unfold sortByScoreDesc
    rw [ih hxs]
    cases xs with
    | nil => rfl
    | cons y ys =>
      simp [insertByScoreDesc, (hx y (List.mem_cons_self y ys)).le]

lemma insertByScoreDesc_filter_score (q : ℚ) (x : SearchResult)
    (l : List SearchResult) :
    (insertByScoreDesc x l).filter (fun r => decide (r.score = q)) =
      (x :: l).filter (fun r => decide (r.score = q)) := by
  induction l with
  | nil => rfl
  | cons y ys ih =>
    unfold insertByScoreDesc
    by_cases h : y.score ≤ x.score
    · rw [if_pos h]
    · rw [if_neg h]
      by_cases hy : y.score = q
      · have hx : ¬ x.score = q := by
          intro hx
          exact h (le_of_eq (hy.trans hx.symm))
        simp [List.filter_cons, hy, hx, ih]
      · simp [List.filter_cons, hy, ih]

/-- Stability of the sort model: the sublist of elements carrying any given
score is exactly the corresponding sublist of the input, in input order. -/
lemma sortByScoreDesc_filter_score (q : ℚ) (l : List SearchResult) :
    (sortByScoreDesc l).filter (fun r => decide (r.score = q)) =
      l.filter (fun r => decide (r.score = q)) := by
  induction l with
  | nil => rfl
  | cons x xs ih =>
    unfold sortByScoreDesc
    rw [insertByScoreDesc_filter_score]
    simp [List.filter_cons, ih]

/-! ## `RRFReranker` (the reranker module)

```ts
async rerank(query, results) {
    const reranked = results.map((result, idx) => ({
        ...result,
        score: 1 / (this.k + idx + 1),
    }));
    return reranked.sort((a, b) => b.score - a.score);
}
``` -/

/-- The `results.map((result, idx) => …)` score reassignment, carrying the
running zero-based index. -/
def rrfAssign (k : ℚ) : Nat → List SearchResult → List SearchResult
  | _, [] => []
  | i, r :: rs =>
    { r with score := 1 / (k + (i : ℚ) + 1) } :: rrfAssign k (i + 1) rs

/-- `RRFReranker.rerank` with constant `k` (the constructor default is 60). -/
def rrfRerank (k : ℚ) (results : List SearchResult) : List SearchResult :=
  sortByScoreDesc (rrfAssign k 0 results)

lemma rrfAssign_score_le (k : ℚ) (hk : 0 ≤ k) :
    ∀ (rs : List SearchResult) (i : Nat) (x : SearchResult),
      x ∈ rrfAssign k i rs → x.score ≤ 1 / (k + (i : ℚ) + 1) := by
  intro rs
  induction rs with
  | nil => intro i x hx; simp [rrfAssign] at hx
  | cons r rs ih =>
    intro i x hx
    rcases List.mem_cons.mp hx with rfl | hx
    · exact le_refl _
    · have h1 : (0 : ℚ) < k + (i : ℚ) + 1 := by positivity
      have h2 : k + (i : ℚ) + 1 ≤ k + ((i + 1 : Nat) : ℚ) + 1 := by
        push_cast; linarith
      exact le_trans (ih (i + 1) x hx) (one_div_le_one_div_of_le h1 h2)

lemma rrfAssign_pairwise (k : ℚ) (hk : 0 ≤ k) :
    ∀ (rs : List SearchResult) (i : Nat),
      ((rrfAssign k i rs).map (fun r => r.score)).Pairwise (· > ·) := by
  intro rs
  induction rs with
  | nil => intro i; simp [rrfAssign]
  | cons r rs ih =>
    intro i
    simp only [rrfAssign, List.map_cons, List.pairwise_cons]
    refine ⟨?_, ih (i + 1)⟩
    intro s hs
    rcases List.mem_map.mp hs with ⟨x, hx, rfl⟩
    have h1 : (0 : ℚ) < k + (i : ℚ) + 1 := by positivity
    have h2 : k + (i : ℚ) + 1 < k + ((i + 1 : Nat) : ℚ) + 1 := by
      push_cast; linarith
    exact lt_of_le_of_lt (rrfAssign_score_le k hk rs (i + 1) x hx)
      (one_div_lt_one_div_of_lt h1 h2)

lemma rrfAssign_getElem? (k : ℚ) :
    ∀ (rs : List SearchResult) (i j : Nat),
      (rrfAssign k i rs)[j]? =
        rs[j]?.map (fun r => { r with score := 1 / (k + ((i + j : Nat) : ℚ) + 1) }) := by
  intro rs
  induction rs with
  | nil => intro i j; simp [rrfAssign]
  | cons r rs ih =>
    intro i j
    cases j with
    | zero => simp [rrfAssign]
    | succ j' =>
      simp only [rrfAssign, List.getElem?_cons_succ]
      rw [ih (i + 1) j']
      have : i + 1 + j' = i + (j' + 1) := by omega
      rw [this]

lemma rrfAssign_map_document (k : ℚ) :
    ∀ (rs : List SearchResult) (i : Nat),
      (rrfAssign k i rs).map (fun r => r.document) =
        rs.map (fun r => r.document) := by
  intro rs
  induction rs with
  | nil => intro i; rfl
  | cons r rs ih => intro i; simp [rrfAssign, ih (i + 1)]

/-- **C9** (confirmed).  `RRFReranker.rerank` with a nonnegative constant `k`
(the default is 60): the result at zero-based input position `j` gets score
`1 / (k + j + 1)` with its document unchanged, the output is the input order
(the reassigned scores are already strictly decreasing, so the descending sort
is the identity), scores are strictly decreasing by rank, and in particular
the result at rank 0 scores strictly higher than the result at rank 1. -/
theorem rrf_rerank_semantics (k : ℚ) (rs : List SearchResult) (hk : 0 ≤ k) :
    rrfRerank k rs = rrfAssign k 0 rs ∧
    (∀ j : Nat, (rrfRerank k rs)[j]? =
      rs[j]?.map (fun r => { r with score := 1 / (k + (j : ℚ) + 1) })) ∧
    (rrfRerank k rs).map (fun r => r.document) = rs.map (fun r => r.document) ∧
    ((rrfRerank k rs).map (fun r => r.score)).Pairwise (· > ·) ∧
    (∀ a b rest, rrfRerank k rs = a :: b :: rest → b.score < a.score) := by
  have hpw := rrfAssign_pairwise k hk rs 0
  have hsorted : sortByScoreDesc (rrfAssign k 0 rs) = rrfAssign k 0 rs := by
    apply sortByScoreDesc_of_strict_sorted
    have := (List.pairwise_map (f := fun r : SearchResult => r.score)).mp hpw
    exact this.imp (fun h => h)
  have hmain : rrfRerank k rs = rrfAssign k 0 rs := hsorted
  refine ⟨hmain, ?_, ?_, ?_, ?_⟩
  · intro j
    rw [hmain, rrfAssign_getElem? k rs 0 j]
    simp
  · rw [hmain]; exact rrfAssign_map_document k rs 0
  · rw [hmain]; exact hpw
  · intro a b rest heq
    have := hpw
    rw [← hmain, heq] at this
    simp only [List.map_cons, List.pairwise_cons] at this
    exact this.1 b.score (by simp)

/-- Witness for C9: `k = 60` on a concrete two-element result list. -/
theorem rrf_rerank_semantics_witness :
    (0 : ℚ) ≤ 60 ∧
    (rrfRerank 60 [⟨⟨none, ['a'], []⟩, 0⟩, ⟨⟨none, ['b'], []⟩, 0⟩] =
        rrfAssign 60 0 [⟨⟨none, ['a'], []⟩, 0⟩, ⟨⟨none, ['b'], []⟩, 0⟩] ∧
      (∀ j : Nat,
        (rrfRerank 60 [⟨⟨none, ['a'], []⟩, 0⟩, ⟨⟨none, ['b'], []⟩, 0⟩])[j]? =
          ([⟨⟨none, ['a'], []⟩, 0⟩,
            ⟨⟨none, ['b'], []⟩, 0⟩] : List SearchResult)[j]?.map
            (fun r => { r with score := 1 / (60 + (j : ℚ) + 1) })) ∧
      (rrfRerank 60 [⟨⟨none, ['a'], []⟩, 0⟩, ⟨⟨none, ['b'], []⟩, 0⟩]).map
          (fun r => r.document) =
        ([⟨⟨none, ['a'], []⟩, 0⟩, ⟨⟨none, ['b'], []⟩, 0⟩] :
          List SearchResult).map (fun r => r.document) ∧
      ((rrfRerank 60 [⟨⟨none, ['a'], []⟩, 0⟩, ⟨⟨none, ['b'], []⟩, 0⟩]).map
          (fun r => r.score)).Pairwise (· > ·) ∧
      (∀ a b rest,
        rrfRerank 60 [⟨⟨none, ['a'], []⟩, 0⟩, ⟨⟨none, ['b'], []⟩, 0⟩] =
          a :: b :: rest → b.score < a.score)) :=
  ⟨by decide,
    rrf_rerank_semantics 60 [⟨⟨none, ['a'], []⟩, 0⟩, ⟨⟨none, ['b'], []⟩, 0⟩]
      (by decide)⟩

/-! ## `KeywordReranker` (the reranker module)

`extractKeywords` lower-cases the query, splits it on `/\s+/`, drops stop
words and tokens of length ≤ 2, and keeps the first 10 tokens.  `rerank` then
counts, for each result, the matches of `new RegExp(keyword, 'g')` against the
lower-cased content — i.e. it interprets each keyword as a **regular
expression**, not as a literal substring.  The regex fragment reachable here
is embedded for patterns made of literal characters and the `.` wildcard
(counting non-overlapping leftmost matches, as `String.prototype.match` with
the `g` flag does); keywords containing other regex metacharacters (or
forming invalid patterns, which make `rerank` throw) are outside this model
and are excluded by the `isRegexMeta` hypothesis where faithfulness needs
it. -/

mutual
/-- `String.prototype.split(/\s+/)`: reading a token (`acc` is reversed). -/
def splitWsTok : List Char → List Char → List (List Char)
  | [], acc => [acc.reverse]
  | c :: rest, acc =>
    if isJsWs c then acc.reverse :: splitWsSkip rest
    else splitWsTok rest (c :: acc)

/-- `String.prototype.split(/\s+/)`: consuming the rest of a whitespace
run (a trailing run yields a final empty token, as in JavaScript). -/
def splitWsSkip : List Char → List (List Char)
  | [] => [[]]
  | c :: rest =>
    if isJsWs c then splitWsSkip rest
    else splitWsTok rest [c]
end

/-- `text.split(/\s+/)`. -/
def jsSplitWs (l : List Char) : List (List Char) := splitWsTok l []

/-- The fixed stop-word set of `KeywordReranker.extractKeywords`. -/
def stopWords : List (List Char) :=
  ["the", "a", "an", "and", "or", "but", "in", "on", "at", "to", "for", "of",
   "with", "by", "from", "is", "are", "was", "were", "be", "been",
   "being"].map String.toList

/-- `KeywordReranker.extractKeywords` (applied to the already lower-cased
query text). -/
def extractKeywords (text : List Char) : List (List Char) :=
  ((jsSplitWs text).filter
    (fun w => decide (2 < w.length) && ! decide (w ∈ stopWords))).take 10

/-- Does `c` match the regex `.` wildcard (anything but a line
terminator)? -/
def dotMatches (c : Char) : Bool :=
  !(c = '\n' || c = '\r' || c = '\u2028' || c = '\u2029')

/-- Does the literal-and-dot pattern match a prefix of `s`? -/
def litDotMatchesAt : List Char → List Char → Bool
  | [], _ => true
  | _ :: _, [] => false
  | p :: ps, c :: cs =>
    (if p = '.' then dotMatches c else p = c) && litDotMatchesAt ps cs

/-- Non-overlapping leftmost match counting for a literal-and-dot pattern:
the length of `content.match(new RegExp(pattern, 'g'))`.  `skip > 0` means
the previous match still covers the next `skip` characters. -/
def regexCountSkip (pat : List Char) : List Char → Nat → Nat
  | [], _ => 0
  | c :: cs, 0 =>
    if litDotMatchesAt pat (c :: cs) then
      1 + regexCountSkip pat cs (pat.length - 1)
    else regexCountSkip pat cs 0
  | _ :: cs, n + 1 => regexCountSkip pat cs n

/-- Match count of `new RegExp(pat, 'g')` against `s` (patterns here are
non-empty: keywords have length > 2). -/
def regexCount (pat s : List Char) : Nat := regexCountSkip pat s 0

/-- `KeywordReranker.rerank`: boost each score by keyword matches against the
lower-cased content, then sort descending. -/
def kwRerank (query : List Char) (results : List SearchResult) :
    List SearchResult :=
  sortByScoreDesc (results.map (fun r =>
    { r with score := r.score *
        (1 + ((((extractKeywords (query.map jsToLower)).map (fun kw =>
            regexCount kw (r.document.content.map jsToLower))).sum : ℚ) *
          (1 / 10))) }))

/-- Non-overlapping substring occurrence counting — following the
specification's words ("total occurrences … via substring counting"); the
comparison point for C2. -/
def substrCountSkip (pat : List Char) : List Char → Nat → Nat
  | [], _ => 0
  | c :: cs, 0 =>
    if pat <+: (c :: cs) then 1 + substrCountSkip pat cs (pat.length - 1)
    else substrCountSkip pat cs 0
  | _ :: cs, n + 1 => substrCountSkip pat cs n

/-- Substring occurrence count of `pat` in `s`. -/
def substrCount (pat s : List Char) : Nat := substrCountSkip pat s 0

/-- The reranker the claim describes, with literal substring counting in
place of the code's regex counting (everything else identical). -/
def specKwRerank (query : List Char) (results : List SearchResult) :
    List SearchResult :=
  sortByScoreDesc (results.map (fun r =>
    { r with score := r.score *
        (1 + ((((extractKeywords (query.map jsToLower)).map (fun kw =>
            substrCount kw (r.document.content.map jsToLower))).sum : ℚ) *
          (1 / 10))) }))

/-- Regex metacharacters of JavaScript patterns. -/
def isRegexMeta (c : Char) : Bool :=
  c = '.' || c = '*' || c = '+' || c = '?' || c = '^' || c = '$' ||
  c = '(' || c = ')' || c = '[' || c = ']' || c = '\x7b' || c = '\x7d' ||
  c = '|' || c = '\\'

/-- Counterexample to **C2** as stated: the code counts keyword occurrences by
regex matching, not substring counting.  For the query `"a.b"` (one keyword,
`a.b`) and one result with content `"axb"` and score 1, the regex `a.b`
matches `axb` once, so the code rescales the score to `1.1`, while substring
counting finds zero occurrences and the claim predicts an unchanged score of
`1`. -/
theorem kwRerank_counterexample :
    kwRerank ['a', '.', 'b'] [⟨⟨none, ['a', 'x', 'b'], []⟩, 1⟩] ≠
      specKwRerank ['a', '.', 'b'] [⟨⟨none, ['a', 'x', 'b'], []⟩, 1⟩] := by
  intro h
  have hs : (1 : ℚ) *
      (1 + ((((extractKeywords (['a', '.', 'b'].map jsToLower)).map (fun kw =>
          regexCount kw (['a', 'x', 'b'].map jsToLower))).sum : ℚ) *
        (1 / 10))) = (1 : ℚ) *
      (1 + ((((extractKeywords (['a', '.', 'b'].map jsToLower)).map (fun kw =>
          substrCount kw (['a', 'x', 'b'].map jsToLower))).sum : ℚ) *
        (1 / 10))) :=
    congrArg (fun l => (l.headD ⟨⟨none, [], []⟩, 0⟩).score) h
  have e1 : ((extractKeywords (['a', '.', 'b'].map jsToLower)).map (fun kw =>
      regexCount kw (['a', 'x', 'b'].map jsToLower))).sum = 1 := by decide
  have e2 : ((extractKeywords (['a', '.', 'b'].map jsToLower)).map (fun kw =>
      substrCount kw (['a', 'x', 'b'].map jsToLower))).sum = 0 := by decide
  rw [e1, e2] at hs
  norm_num at hs

lemma litDotMatchesAt_eq_isPrefix (pat : List Char)
    (hpat : ∀ c ∈ pat, c ≠ '.') :
    ∀ s, litDotMatchesAt pat s = decide (pat <+: s) := by
  induction pat with
  | nil => intro s; simp [litDotMatchesAt, List.nil_prefix]
  | cons p ps ih =>
    intro s
    cases s with
    | nil => simp [litDotMatchesAt]
    | cons c cs =>
      have hp : p ≠ '.' := hpat p (List.mem_cons_self p ps)
      have hps : ∀ c ∈ ps, c ≠ '.' := fun d hd =>
        hpat d (List.mem_cons_of_mem p hd)
      simp only [litDotMatchesAt, if_neg hp, ih hps cs,
        List.cons_prefix_cons]
      by_cases hpc : p = c <;> simp [hpc]

lemma regexCountSkip_eq_substrCountSkip (pat : List Char)
    (hpat : ∀ c ∈ pat, c ≠ '.') :
    ∀ (s : List Char) (n : Nat),
      regexCountSkip pat s n = substrCountSkip pat s n := by
  intro s
  induction s with
  | nil => intro n; rfl
  | cons c cs ih =>
    intro n
    cases n with
    | zero =>
      simp only [regexCountSkip, substrCountSkip,
        litDotMatchesAt_eq_isPrefix pat hpat (c :: cs)]
      by_cases h : pat <+: (c :: cs)
      · simp [h, ih]
      · simp [h, ih]
    | succ m => simpa [regexCountSkip, substrCountSkip] using ih m

/-- **C2** (corrected).  With keywords free of regex metacharacters the
original description holds exactly: `KeywordReranker.rerank` extracts up to 10
keywords from the lower-cased query (dropping stop words and tokens of length
≤ 2), counts non-overlapping keyword occurrences in the lower-cased content
(where for such keywords regex matching and substring counting agree),
rescales each score by `1 + occurrences·0.1`, returns a permutation of the
rescored inputs sorted descending by score and stably so — for every score
the sublist of outputs at that score is the sublist of rescored inputs at
that score, in input order — and maps an empty result list to an empty
output.  (For metacharacter-bearing keywords the code's regex count differs
from substring counting — see the counterexample.) -/
theorem kwRerank_literal_keywords_semantics (query : List Char)
    (rs : List SearchResult)
    (h : ∀ kw ∈ extractKeywords (query.map jsToLower), ∀ c ∈ kw,
      isRegexMeta c = false) :
    kwRerank query rs = specKwRerank query rs ∧
    (extractKeywords (query.map jsToLower)).length ≤ 10 ∧
    ((kwRerank query rs).map (fun r => r.score)).Pairwise (· ≥ ·) ∧
    (kwRerank query rs).Perm (rs.map (fun r =>
      { r with score := r.score *
          (1 + ((((extractKeywords (query.map jsToLower)).map (fun kw =>
              substrCount kw (r.document.content.map jsToLower))).sum : ℚ) *
            (1 / 10))) })) ∧
    (∀ q : ℚ, (kwRerank query rs).filter (fun r => decide (r.score = q)) =
      (rs.map (fun r =>
        { r with score := r.score *
            (1 + ((((extractKeywords (query.map jsToLower)).map (fun kw =>
                substrCount kw (r.document.content.map jsToLower))).sum : ℚ) *
              (1 / 10))) })).filter (fun r => decide (r.score = q))) ∧
    (rs = [] → kwRerank query rs = []) := by
  have hcounts : ∀ kw ∈ extractKeywords (query.map jsToLower), ∀ content,
      regexCount kw content = substrCount kw content := by
    intro kw hkw content
    have : ∀ c ∈ kw, c ≠ '.' := by
      intro c hc hdot
      have := h kw hkw c hc
      rw [hdot] at this
      simp [isRegexMeta] at this
    exact regexCountSkip_eq_substrCountSkip kw this content 0
  have hmapeq : rs.map (fun r =>
      { r with score := r.score *
          (1 + ((((extractKeywords (query.map jsToLower)).map (fun kw =>
              regexCount kw (r.document.content.map jsToLower))).sum : ℚ) *
            (1 / 10))) }) = rs.map (fun r =>
      { r with score := r.score *
          (1 + ((((extractKeywords (query.map jsToLower)).map (fun kw =>
              substrCount kw (r.document.content.map jsToLower))).sum : ℚ) *
            (1 / 10))) }) := by
    apply List.map_congr_left
    intro r _
    have hmr : (extractKeywords (query.map jsToLower)).map
        (fun kw => regexCount kw (r.document.content.map jsToLower)) =
      (extractKeywords (query.map jsToLower)).map
        (fun kw => substrCount kw (r.document.content.map jsToLower)) :=
      List.map_congr_left (fun kw hkw => hcounts kw hkw _)
    rw [hmr]
  have heq : kwRerank query rs = specKwRerank query rs := by
    unfold kwRerank specKwRerank
    rw [hmapeq]
  refine ⟨heq, ?_, ?_, ?_, ?_, ?_⟩
  · exact List.length_take_le 10 _
  · have := sortByScoreDesc_sorted (rs.map (fun r =>
      { r with score := r.score *
          (1 + ((((extractKeywords (query.map jsToLower)).map (fun kw =>
              regexCount kw (r.document.content.map jsToLower))).sum : ℚ) *
            (1 / 10))) }))
    rw [List.pairwise_map]
    exact this.imp (fun hab => hab)
  · unfold kwRerank
    rw [← hmapeq]
    exact sortByScoreDesc_perm _
  · intro q
    unfold kwRerank
    rw [hmapeq]
    exact sortByScoreDesc_filter_score q _
  · intro hrs
    subst hrs
    rfl

/-- Witness for C2's amended semantics at the query `"hello"` (one keyword,
no metacharacters) and one concrete result. -/
theorem kwRerank_literal_keywords_semantics_witness :
    (∀ kw ∈ extractKeywords (['h', 'e', 'l', 'l', 'o'].map jsToLower),
      ∀ c ∈ kw, isRegexMeta c = false) ∧
    (kwRerank ['h', 'e', 'l', 'l', 'o'] [⟨⟨none, ['h', 'i'], []⟩, 1⟩] =
        specKwRerank ['h', 'e', 'l', 'l', 'o'] [⟨⟨none, ['h', 'i'], []⟩, 1⟩] ∧
      (extractKeywords (['h', 'e', 'l', 'l', 'o'].map jsToLower)).length
          ≤ 10 ∧
      ((kwRerank ['h', 'e', 'l', 'l', 'o']
          [⟨⟨none, ['h', 'i'], []⟩, 1⟩]).map (fun r => r.score)).Pairwise
        (· ≥ ·) ∧
      (kwRerank ['h', 'e', 'l', 'l', 'o']
          [⟨⟨none, ['h', 'i'], []⟩, 1⟩]).Perm
        (([⟨⟨none, ['h', 'i'], []⟩, 1⟩] : List SearchResult).map (fun r =>
          { r with score := r.score *
              (1 + ((((extractKeywords
                  (['h', 'e', 'l', 'l', 'o'].map jsToLower)).map (fun kw =>
                  substrCount kw
                    (r.document.content.map jsToLower))).sum : ℚ) *
                (1 / 10))) })) ∧
      (∀ q : ℚ, (kwRerank ['h', 'e', 'l', 'l', 'o']
          [⟨⟨none, ['h', 'i'], []⟩, 1⟩]).filter
            (fun r => decide (r.score = q)) =
        (([⟨⟨none, ['h', 'i'], []⟩, 1⟩] : List SearchResult).map (fun r =>
          { r with score := r.score *
              (1 + ((((extractKeywords
                  (['h', 'e', 'l', 'l', 'o'].map jsToLower)).map (fun kw =>
                  substrCount kw
                    (r.document.content.map jsToLower))).sum : ℚ) *
                (1 / 10))) })).filter (fun r => decide (r.score = q))) ∧
      (([⟨⟨none, ['h', 'i'], []⟩, 1⟩] : List SearchResult) = [] →
        kwRerank ['h', 'e', 'l', 'l', 'o']
          [⟨⟨none, ['h', 'i'], []⟩, 1⟩] = [])) :=
  ⟨by decide,
    kwRerank_literal_keywords_semantics ['h', 'e', 'l', 'l', 'o']
      [⟨⟨none, ['h', 'i'], []⟩, 1⟩] (by decide)⟩

/-! ## `RecursiveCharacterTextSplitter` (src/ingestion/splitters.ts, 22–103)

`recursiveSplit` picks the first separator of the configured list that occurs
in the text (breaking early, with empty `newSeparators`, on the empty-string
separator), splits on it, greedily re-merges trimmed non-empty pieces up to
the chunk size, recurses with the remaining separators into oversized pieces
when possible, and finally applies the overlap step.  The recursion descends
along strict suffixes of the separator list, so it is embedded with fuel
`seps.length + 1`, which always suffices (the zero-fuel case is
unreachable from `recursiveSplitText`). -/

/-- `text.split(separator)` for a non-empty separator: scan left to right,
cutting at each leftmost non-overlapping occurrence (`acc` is the reversed
current piece). -/
def jsSplitOnAux (s0 : Char) (srest : List Char) :
    List Char → List Char → List (List Char)
  | [], acc => [acc.reverse]
  | c :: rest, acc =>
    if (s0 :: srest) <+: (c :: rest) then
      acc.reverse :: jsSplitOnAux s0 srest ((c :: rest).drop (srest.length + 1)) []
    else jsSplitOnAux s0 srest rest (c :: acc)
termination_by l _ => l.length
decreasing_by
  · simp [List.length_drop]; try omega
  · simp; try omega

/-- `separator ? text.split(separator) : [text]` — the splitting step of
`recursiveSplit` (an empty separator is falsy in JavaScript). -/
def jsSplit (sep text : List Char) : List (List Char) :=
  match sep with
  | [] => [text]
  | s0 :: srest => jsSplitOnAux s0 srest text []

/-- The separator-selection loop: return the separator it breaks at (an empty
separator breaks with empty `newSeparators`; an occurring separator breaks
with the remaining list), or `none` if the loop runs through. -/
def findSep (text : List Char) : List (List Char) →
    Option (List Char × List (List Char))
  | [] => none
  | s :: rest =>
    if s = [] then some ([], [])
    else if s <:+: text then some (s, rest)
    else findSep text rest

/-- The chosen separator and new separator list: the loop's result, or the
defaults (`separators[separators.length - 1]` and `[]`). -/
def chooseSep (seps : List (List Char)) (text : List Char) :
    List Char × List (List Char) :=
  match findSep text seps with
  | some p => p
  | none => (seps.getLastD [], [])

/-- The chunk-merging loop of `recursiveSplit` (including the final flush of
the remaining accumulator).  `sub` is the recursive splitter on the remaining
separators, or `none` when `newSeparators` is empty. -/
def mergeLoop (chunkSize : Nat) (sep : List Char)
    (sub : Option (List Char → List (List Char))) :
    List (List Char) → List Char → List (List Char)
  | [], cur => if cur = [] then [] else [cur]
  | piece :: rest, cur =>
    let t := jsTrim piece
    if t = [] then mergeLoop chunkSize sep sub rest cur
    else
      let test := if cur = [] then t else cur ++ sep ++ t
      if test.length ≤ chunkSize then mergeLoop chunkSize sep sub rest test
      else
        (if cur = [] then [] else [cur]) ++
        (match sub with
         | some f =>
           if chunkSize < t.length then f t ++ mergeLoop chunkSize sep sub rest []
           else mergeLoop chunkSize sep sub rest t
         | none => mergeLoop chunkSize sep sub rest t)

/-- The overlap pass over every chunk after the first:
`prevChunk.slice(-overlap) + ' ' + chunk`. -/
def overlapAux (ov : Nat) : List Char → List (List Char) → List (List Char)
  | _, [] => []
  | prev, c :: cs =>
    (prev.drop (prev.length - ov) ++ ' ' :: c) :: overlapAux ov c cs

/-- `applyOverlap`: identity when the overlap is 0 or there is at most one
chunk. -/
def applyOverlap (ov : Nat) (chunks : List (List Char)) : List (List Char) :=
  if ov = 0 ∨ chunks.length ≤ 1 then chunks
  else
    match chunks with
    | [] => []
    | c0 :: rest => c0 :: overlapAux ov c0 rest

/-- `recursiveSplit`, fuelled along the separator-list descent. -/
def recursiveSplitAux (chunkSize chunkOverlap : Nat) :
    Nat → List (List Char) → List Char → List (List Char)
  | 0, _, _ => []
  | fuel + 1, seps, text =>
    let sc := chooseSep seps text
    let splits := jsSplit sc.1 text
    let sub : Option (List Char → List (List Char)) :=
      match sc.2 with
      | [] => none
      | s :: rest =>
        some (fun t => recursiveSplitAux chunkSize chunkOverlap fuel
          (s :: rest) t)
    applyOverlap chunkOverlap (mergeLoop chunkSize sc.1 sub splits [])

/-- `RecursiveCharacterTextSplitter.splitText` with separator list `seps`
(the constructor default is `['\n\n', '\n', ' ', '']`). -/
def recursiveSplitText (chunkSize chunkOverlap : Nat)
    (seps : List (List Char)) (text : List Char) : List (List Char) :=
  recursiveSplitAux chunkSize chunkOverlap (seps.length + 1) seps text

/-- The default separator list `['\n\n', '\n', ' ', '']`. -/
def defaultSeparators : List (List Char) :=
  [['\n', '\n'], ['\n'], [' '], []]

/-- The separators the algorithm can ever split on: the prefix of the list
before (and excluding) the first empty separator, which acts as a terminal
"atomic" marker. -/
def applicableSeps (seps : List (List Char)) : List (List Char) :=
  seps.takeWhile (fun s => !s.isEmpty)

lemma jsTrim_infix_self (s : List Char) : jsTrim s <:+: s := by
  unfold jsTrim
  have h1 : s.dropWhile isJsWs <:+ s := List.dropWhile_suffix isJsWs
  have h2 : ((s.dropWhile isJsWs).reverse.dropWhile isJsWs).reverse <+:
      s.dropWhile isJsWs := by
    rw [← List.reverse_suffix]
    simpa using List.dropWhile_suffix (l := (s.dropWhile isJsWs).reverse) isJsWs
  exact h2.isInfix.trans h1.isInfix

lemma getLastD_mem {α : Type} (l : List α) (d : α) (h : l ≠ []) :
    l.getLastD d ∈ l := by
  induction l with
  | nil => exact absurd rfl h
  | cons x xs ih =>
    cases xs with
    | nil => simp [List.getLastD]
    | cons y ys =>
      have hmem := ih (by simp)
      simp only [List.getLastD] at hmem ⊢
      exact List.mem_cons_of_mem x hmem

lemma findSep_none_spec (text : List Char) :
    ∀ seps, findSep text seps = none →
      ∀ s ∈ seps, s ≠ [] ∧ ¬ s <:+: text := by
  intro seps
  induction seps with
  | nil => intro _ s hs; simp at hs
  | cons s₀ rest ih =>
    intro h s hs
    unfold findSep at h
    by_cases h0 : s₀ = []
    · simp [h0] at h
    · rw [if_neg h0] at h
      by_cases h1 : s₀ <:+: text
      · simp [h1] at h
      · rw [if_neg h1] at h
        rcases List.mem_cons.mp hs with rfl | hs
        · exact ⟨h0, h1⟩
        · exact ih h s hs

lemma findSep_some_spec (text : List Char) :
    ∀ seps sep ns, findSep text seps = some (sep, ns) →
      ∃ pre post, seps = pre ++ sep :: post ∧
        (∀ s ∈ pre, s ≠ [] ∧ ¬ s <:+: text) ∧
        ((sep = [] ∧ ns = []) ∨ (sep ≠ [] ∧ sep <:+: text ∧ ns = post)) := by
  intro seps
  induction seps with
  | nil => intro sep ns h; simp [findSep] at h
  | cons s₀ rest ih =>
    intro sep ns h
    unfold findSep at h
    by_cases h0 : s₀ = []
    · rw [if_pos h0] at h
      obtain ⟨rfl, rfl⟩ : ([] : List Char) = sep ∧
          ([] : List (List Char)) = ns := by
        simpa [Prod.ext_iff] using h
      exact ⟨[], rest, by simp [h0], by simp, Or.inl ⟨rfl, rfl⟩⟩
    · rw [if_neg h0] at h
      by_cases h1 : s₀ <:+: text
      · rw [if_pos h1] at h
        obtain ⟨rfl, rfl⟩ : s₀ = sep ∧ rest = ns := by
          simpa [Prod.ext_iff] using h
        exact ⟨[], rest, by simp, by simp, Or.inr ⟨h0, h1, rfl⟩⟩
      · rw [if_neg h1] at h
        rcases ih sep ns h with ⟨pre, post, hseps, hpre, hcase⟩
        refine ⟨s₀ :: pre, post, by rw [hseps]; rfl, ?_, hcase⟩
        intro s hs
        rcases List.mem_cons.mp hs with rfl | hs
        · exact ⟨h0, h1⟩
        · exact hpre s hs

lemma jsSplitOnAux_parts (s0 : Char) (srest text : List Char) :
    ∀ (l acc : List Char),
      (acc.reverse ++ l) <:+: text →
      (∀ u w, acc.reverse = u ++ w → w ≠ [] →
        ¬ (s0 :: srest) <+: (w ++ l)) →
      ∀ part ∈ jsSplitOnAux s0 srest l acc,
        ¬ (s0 :: srest) <:+: part ∧ part <:+: text := by
  intro l acc
  induction l, acc using jsSplitOnAux.induct s0 srest with
  | case1 acc =>
    intro hinfix hinv part hpart
    simp only [jsSplitOnAux, List.mem_singleton] at hpart
    subst hpart
    constructor
    · rintro ⟨u, v, huv⟩
      exact hinv u ((s0 :: srest) ++ v) (by rw [← huv]; simp)
        (by simp) (by simp)
    · exact (List.prefix_append acc.reverse []).isInfix.trans
        (by simpa using hinfix)
  | case2 c rest acc hmatch ih =>
    intro hinfix hinv part hpart
    rw [jsSplitOnAux, if_pos hmatch] at hpart
    rcases List.mem_cons.mp hpart with rfl | hpart
    · constructor
      · rintro ⟨u, v, huv⟩
        refine hinv u ((s0 :: srest) ++ v) (by rw [← huv]; simp) (by simp) ?_
        simp [List.append_assoc]
      · exact (List.prefix_append acc.reverse (c :: rest)).isInfix.trans hinfix
    · refine ih ?_ ?_ part hpart
      · have h1 : ((c :: rest).drop (srest.length + 1)) <:+ (c :: rest) :=
          List.drop_suffix _ _
        have h2 : (c :: rest) <:+ acc.reverse ++ (c :: rest) :=
          List.suffix_append _ _
        simpa using ((h1.trans h2).isInfix.trans hinfix)
      · intro u w huw hw
        simp at huw
        exact absurd huw.2 hw
  | case3 c rest acc hmatch ih =>
    intro hinfix hinv part hpart
    rw [jsSplitOnAux, if_neg hmatch] at hpart
    refine ih ?_ ?_ part hpart
    · simpa using hinfix
    · intro u w huw hw
      have huw' : u ++ w = acc.reverse ++ [c] := by simpa using huw.symm
      rcases List.append_eq_append_iff.mp huw' with ⟨a', ha1, ha2⟩ |
        ⟨c', hc1, hc2⟩
      · subst ha2
        by_cases ha' : a' = []
        · subst ha'
          simpa using hmatch
        · intro habs
          exact hinv u a' ha1 ha' (by simpa [List.append_assoc] using habs)
      · cases c' with
        | nil =>
          have hw' : w = [c] := by simpa using hc2.symm
          subst hw'
          simpa using hmatch
        | cons x xs =>
          exfalso
          have hxs : x = c ∧ xs ++ w = [] := by
            have := hc2.symm
            simpa using this
          exact hw (List.append_eq_nil.mp hxs.2).2

lemma jsSplit_parts (sep text : List Char) :
    ∀ part ∈ jsSplit sep text,
      (sep ≠ [] → ¬ sep <:+: part) ∧ part <:+: text := by
  intro part hpart
  cases sep with
  | nil =>
    simp only [jsSplit, List.mem_singleton] at hpart
    subst hpart
    exact ⟨fun h => absurd rfl h, List.infix_refl _⟩
  | cons s0 srest =>
    have := jsSplitOnAux_parts s0 srest text text []
      (by simp)
      (by intro u w huw hw; simp at huw; exact absurd huw.2 hw)
      part hpart
    exact ⟨fun _ => this.1, this.2⟩

lemma applicableSeps_append_ne (pre : List (List Char)) (sep : List Char)
    (post : List (List Char)) (hpre : ∀ s ∈ pre, s ≠ []) :
    applicableSeps (pre ++ sep :: post) =
      if sep = [] then pre else pre ++ sep :: applicableSeps post := by
  induction pre with
  | nil =>
    by_cases h : sep = []
    · simp [applicableSeps, List.takeWhile_cons, h]
    · simp [applicableSeps, List.takeWhile_cons,
        List.isEmpty_iff.not.mpr h, h]
  | cons p ps ih =>
    have hp : p ≠ [] := hpre p (List.mem_cons_self p ps)
    have hps : ∀ s ∈ ps, s ≠ [] := fun s hs => hpre s (List.mem_cons_of_mem p hs)
    have := ih hps
    by_cases h : sep = [] <;>
      simp_all [applicableSeps, List.takeWhile_cons, List.isEmpty_iff.not.mpr hp]

lemma applyOverlap_zero (chunks : List (List Char)) :
    applyOverlap 0 chunks = chunks := by
  simp [applyOverlap]

lemma mergeLoop_bound (chunkSize : Nat) (sep : List Char)
    (sub : Option (List Char → List (List Char))) (G : List Char → Prop) :
    ∀ (splits : List (List Char)) (cur : List Char),
      (sub = none → ∀ p ∈ splits, G (jsTrim p)) →
      (∀ f, sub = some f → ∀ p ∈ splits, chunkSize < (jsTrim p).length →
        ∀ c ∈ f (jsTrim p), c.length ≤ chunkSize ∨ G c) →
      (cur = [] ∨ cur.length ≤ chunkSize ∨ G cur) →
      ∀ c ∈ mergeLoop chunkSize sep sub splits cur,
        c.length ≤ chunkSize ∨ G c := by
  intro splits
  induction splits with
  | nil =>
    intro cur _ _ hcur c hc
    unfold mergeLoop at hc
    by_cases h0 : cur = []
    · simp [h0] at hc
    · rw [if_neg h0] at hc
      rcases List.mem_singleton.mp hc with rfl
      rcases hcur with h | h | h
      · exact absurd h h0
      · exact Or.inl h
      · exact Or.inr h
  | cons p rest ih =>
    intro cur h1 h2 hcur c hc
    have h1' : sub = none → ∀ q ∈ rest, G (jsTrim q) := fun hn q hq =>
      h1 hn q (List.mem_cons_of_mem p hq)
    have h2' : ∀ f, sub = some f → ∀ q ∈ rest,
        chunkSize < (jsTrim q).length →
        ∀ c ∈ f (jsTrim q), c.length ≤ chunkSize ∨ G c := fun f hf q hq =>
      h2 f hf q (List.mem_cons_of_mem p hq)
    simp only [mergeLoop] at hc
    by_cases ht : jsTrim p = []
    · rw [if_pos ht] at hc
      exact ih cur h1' h2' hcur c hc
    · rw [if_neg ht] at hc
      by_cases htest :
          (if cur = [] then jsTrim p else cur ++ sep ++ jsTrim p).length ≤
            chunkSize
      · rw [if_pos htest] at hc
        exact ih _ h1' h2' (Or.inr (Or.inl htest)) c hc
      · rw [if_neg htest] at hc
        rcases List.mem_append.mp hc with hflush | hbranch
        · by_cases h0 : cur = []
          · simp [h0] at hflush
          · rw [if_neg h0] at hflush
            rcases List.mem_singleton.mp hflush with rfl
            rcases hcur with h | h | h
            · exact absurd h h0
            · exact Or.inl h
            · exact Or.inr h
        · cases hsub : sub with
          | none =>
            subst hsub
            dsimp only at hbranch
            exact ih _ h1' h2'
              (Or.inr (Or.inr (h1 rfl p (List.mem_cons_self p rest)))) c
              hbranch
          | some f =>
            subst hsub
            dsimp only at hbranch
            by_cases hbig : chunkSize < (jsTrim p).length
            · rw [if_pos hbig] at hbranch
              rcases List.mem_append.mp hbranch with hf | hrest
              · exact h2 f rfl p (List.mem_cons_self p rest) hbig c hf
              · exact ih _ h1' h2' (Or.inl rfl) c hrest
            · rw [if_neg hbig] at hbranch
              exact ih _ h1' h2'
                (Or.inr (Or.inl (Nat.le_of_not_lt hbig))) c hbranch

lemma recursiveSplitAux_bound (chunkSize : Nat) :
    ∀ (fuel : Nat) (seps : List (List Char)) (text : List Char),
      ∀ c ∈ recursiveSplitAux chunkSize 0 fuel seps text,
        c.length ≤ chunkSize ∨
          (c <:+: text ∧ ∀ s ∈ applicableSeps seps, ¬ s <:+: c) := by
  intro fuel
  induction fuel with
  | zero => intro seps text c hc; simp [recursiveSplitAux] at hc
  | succ f ih =>
    intro seps text c hc
    simp only [recursiveSplitAux, applyOverlap_zero] at hc
    cases hfind : findSep text seps with
    | none =>
      have hsc : chooseSep seps text = (seps.getLastD [], []) := by
        simp [chooseSep, hfind]
      rw [hsc] at hc
      have hall := findSep_none_spec text seps hfind
      refine mergeLoop_bound chunkSize _ none
        (fun c => c <:+: text ∧ ∀ s ∈ applicableSeps seps, ¬ s <:+: c)
        (jsSplit (seps.getLastD []) text) [] ?_ (by simp) (Or.inl rfl) c hc
      intro _ p hp
      have hparts := jsSplit_parts (seps.getLastD []) text p hp
      have htp : jsTrim p <:+: text := (jsTrim_infix_self p).trans hparts.2
      refine ⟨htp, ?_⟩
      intro s hs hsc'
      have hmem : s ∈ seps :=
        (List.takeWhile_prefix _).sublist.mem hs
      exact (hall s hmem).2 (hsc'.trans htp)
    | some pr =>
      obtain ⟨sep, ns⟩ := pr
      have hsc : chooseSep seps text = (sep, ns) := by
        simp [chooseSep, hfind]
      rw [hsc] at hc
      obtain ⟨pre, post, hseps, hpre, hcase⟩ :=
        findSep_some_spec text seps sep ns hfind
      have hpre' : ∀ s ∈ pre, s ≠ [] := fun s hs => (hpre s hs).1
      rcases hcase with ⟨rfl, rfl⟩ | ⟨hsepne, hsepocc, rfl⟩
      · -- the loop broke at an empty separator: no recursion, splits = [text]
        have happ : applicableSeps seps = pre := by
          rw [hseps, applicableSeps_append_ne pre [] post hpre', if_pos rfl]
        refine mergeLoop_bound chunkSize _ none
          (fun c => c <:+: text ∧ ∀ s ∈ applicableSeps seps, ¬ s <:+: c)
          (jsSplit [] text) [] ?_ (by simp) (Or.inl rfl) c hc
        intro _ p hp
        have hparts := jsSplit_parts [] text p hp
        have htp : jsTrim p <:+: text := (jsTrim_infix_self p).trans hparts.2
        refine ⟨htp, ?_⟩
        intro s hs hsc'
        rw [happ] at hs
        exact (hpre s hs).2 (hsc'.trans htp)
      · -- a non-empty separator occurs in the text
        have happ : applicableSeps seps =
            pre ++ sep :: applicableSeps ns := by
          rw [hseps, applicableSeps_append_ne pre sep ns hpre',
            if_neg hsepne]
        have hGs : ∀ p ∈ jsSplit sep text, ∀ c', c' <:+: jsTrim p →
            (∀ s ∈ applicableSeps ns, ¬ s <:+: c') →
            (c' <:+: text ∧ ∀ s ∈ applicableSeps seps, ¬ s <:+: c') := by
          intro p hp c' hc' hpost
          have hparts := jsSplit_parts sep text p hp
          have htp : jsTrim p <:+: text := (jsTrim_infix_self p).trans hparts.2
          have hct : c' <:+: text := hc'.trans htp
          refine ⟨hct, ?_⟩
          intro s hs hsc'
          rw [happ] at hs
          rcases List.mem_append.mp hs with hs | hs
          · exact (hpre s hs).2 (hsc'.trans hct)
          · rcases List.mem_cons.mp hs with rfl | hs
            · exact hparts.1 hsepne
                ((hsc'.trans hc').trans (jsTrim_infix_self p))
            · exact hpost s hs (hsc'.trans (List.infix_refl c'))
        cases hpost : ns with
        | nil =>
          rw [hpost] at hc
          refine mergeLoop_bound chunkSize sep none
            (fun c => c <:+: text ∧ ∀ s ∈ applicableSeps seps, ¬ s <:+: c)
            (jsSplit sep text) [] ?_ (by simp) (Or.inl rfl) c hc
          intro _ p hp
          refine hGs p hp (jsTrim p) (List.infix_refl _) ?_
          simp [hpost, applicableSeps]
        | cons s₁ rest₁ =>
          rw [hpost] at hc
          refine mergeLoop_bound chunkSize sep
            (some (fun t => recursiveSplitAux chunkSize 0 f (s₁ :: rest₁) t))
            (fun c => c <:+: text ∧ ∀ s ∈ applicableSeps seps, ¬ s <:+: c)
            (jsSplit sep text) [] (by simp) ?_ (Or.inl rfl) c hc
          intro g hg p hp _ c' hc'
          have hgeq : g = fun t => recursiveSplitAux chunkSize 0 f
              (s₁ :: rest₁) t := by
            exact (Option.some.inj hg).symm
          rw [hgeq] at hc'
          rcases ih (s₁ :: rest₁) (jsTrim p) c' hc' with hle | ⟨hin, hsep'⟩
          · exact Or.inl hle
          · exact Or.inr (hGs p hp c' hin (by rw [hpost]; exact hsep'))

/-- **C4** (confirmed).  For every text, every chunk size, and overlap 0,
every chunk produced by `RecursiveCharacterTextSplitter.splitText` either has
length ≤ the chunk size, or is an atomic span of the input: a contiguous
piece of the text containing none of the applicable separators (those before
the first empty separator of the configured list) — the oversized, unsplit
escape valve. -/
theorem recursive_split_chunk_bound (chunkSize : Nat)
    (seps : List (List Char)) (text : List Char) :
    ∀ c ∈ recursiveSplitText chunkSize 0 seps text,
      c.length ≤ chunkSize ∨
        (c <:+: text ∧ ∀ s ∈ applicableSeps seps, ¬ s <:+: c) :=
  recursiveSplitAux_bound chunkSize (seps.length + 1) seps text

/-- Witness for C4 at the specification's own oversized-atomic test input:
chunkSize 10, separators `[" ", ""]`, text
`"thisisalongwordthatcannotbesplit"` (an atomic token of length 32, emitted
whole). -/
theorem recursive_split_chunk_bound_witness :
    "thisisalongwordthatcannotbesplit".toList ∈
      recursiveSplitText 10 0 [[' '], []]
        "thisisalongwordthatcannotbesplit".toList ∧
    ("thisisalongwordthatcannotbesplit".toList.length ≤ 10 ∨
      ("thisisalongwordthatcannotbesplit".toList <:+:
          "thisisalongwordthatcannotbesplit".toList ∧
        ∀ s ∈ applicableSeps [[' '], []],
          ¬ s <:+: "thisisalongwordthatcannotbesplit".toList)) :=
  ⟨by decide,
    recursive_split_chunk_bound 10 [[' '], []]
      "thisisalongwordthatcannotbesplit".toList
      "thisisalongwordthatcannotbesplit".toList (by decide)⟩

/-! ## The `/query` cache key (src/api/server.ts, line 122)

```ts
const cacheKey = `query:${query}:${topK}:${JSON.stringify(filter || {})}`;
```

The key concatenates the raw query text (which may itself contain colons and
digits), the decimal rendering of the requested top-k, and the
`JSON.stringify` serialization of the filter (defaulted to `{}`), separated by
colons.  JSON values are modelled by `Json`; `JSON.stringify` is modelled for
the fragment in which strings contain no quote or backslash characters (the
`plain…` predicates), where no escaping is emitted; numbers are modelled as
the naturals.  Queries remain completely arbitrary character lists. -/

mutual
/-- A JSON value (the shape of a serialized metadata filter).  Strings are
character lists; numbers are restricted to naturals (the fragment the
injectivity argument needs). -/
inductive Json where
  | str (chars : List Char)
  | num (val : Nat)
  | bool (val : Bool)
  | null
  | arr (items : JsonList)
  | obj (entries : JsonFields)

/-- A list of JSON values (the spine of an array). -/
inductive JsonList where
  | nil
  | cons (head : Json) (tail : JsonList)

/-- The field list of a JSON object, in insertion order. -/
inductive JsonFields where
  | fnil
  | fcons (key : List Char) (fieldVal : Json) (tail : JsonFields)
end

/-- A string with no quote or backslash character: `JSON.stringify` emits it
verbatim, with no escapes. -/
def plainStr (s : List Char) : Bool :=
  s.all (fun c => !(c = '"' || c = '\\'))

mutual
/-- Is every string of the value plain (escape-free)? -/
def plainJson : Json → Bool
  | .null => true
  | .bool _ => true
  | .num _ => true
  | .str s => plainStr s
  | .arr es => plainList es
  | .obj fs => plainFields fs

/-- `plainJson` on each element. -/
def plainList : JsonList → Bool
  | .nil => true
  | .cons h t => plainJson h && plainList t

/-- `plainStr` on each key and `plainJson` on each value. -/
def plainFields : JsonFields → Bool
  | .fnil => true
  | .fcons k v t => plainStr k && plainJson v && plainFields t
end

/-- The decimal rendering `${n}` of a natural number. -/
def numChars (n : Nat) : List Char :=
  if n = 0 then ['0']
  else (Nat.digits 10 n).reverse.map (fun d => Char.ofNat (48 + d))

mutual
/-- `JSON.stringify` on plain values (no escaping needed or modelled). -/
def strJson : Json → List Char
  | .null => "null".toList
  | .bool true => "true".toList
  | .bool false => "false".toList
  | .num n => numChars n
  | .str s => '"' :: s ++ ['"']
  | .arr es => '[' :: strList es ++ [']']
  | .obj fs => '\x7b' :: strFields fs ++ ['\x7d']

/-- Comma-separated serialized elements. -/
def strList : JsonList → List Char
  | .nil => []
  | .cons h .nil => strJson h
  | .cons h (.cons h₂ t) => strJson h ++ ',' :: strList (.cons h₂ t)

/-- Comma-separated serialized `"key":value` fields. -/
def strFields : JsonFields → List Char
  | .fnil => []
  | .fcons k v .fnil => '"' :: k ++ '"' :: ':' :: strJson v
  | .fcons k v (.fcons k₂ v₂ t) =>
    ('"' :: k ++ '"' :: ':' :: strJson v) ++
      ',' :: strFields (.fcons k₂ v₂ t)
end

/-- The `/query` handler's cache key
`query:${query}:${topK}:${JSON.stringify(filter || {})}` (an absent filter is
defaulted to the empty object). -/
def cacheKey (query : List Char) (topK : Nat) (filter : Option Json) :
    List Char :=
  "query:".toList ++ query ++ [':'] ++ numChars topK ++ [':'] ++
    strJson (filter.getD (Json.obj .fnil))

/-! ### Instruments for the injectivity proof

A scan tracking string-literal state and bracket depth, and a quote count.
Over the plain fragment, every serialized value scans to the identity and
contains an even number of quotes, while every valid continuation of a
just-closed value (conservatively overapproximated by `Cont` below) scans to
a strictly negative depth when frames are pending and contains an even number
of quotes. -/

/-- Scan state: inside a string literal, and bracket depth. -/
structure ScanSt where
  inStr : Bool
  depth : Int
  deriving Repr, DecidableEq

/-- One scan step. -/
def scanChar (st : ScanSt) (c : Char) : ScanSt :=
  if st.inStr then
    if c = '"' then ⟨false, st.depth⟩ else st
  else if c = '"' then ⟨true, st.depth⟩
  else if c = '[' ∨ c = '\x7b' then ⟨false, st.depth + 1⟩
  else if c = ']' ∨ c = '\x7d' then ⟨false, st.depth - 1⟩
  else st

/-- Scan a character list. -/
def scan (l : List Char) (st : ScanSt) : ScanSt := l.foldl scanChar st

/-- Number of quote characters. -/
def countQuote (l : List Char) : Nat := l.count '"'

/-- A pending structural frame: an unclosed array or object. -/
inductive Frame where
  | arrF
  | objF
  deriving Repr, DecidableEq

/-- A conservative overapproximation of the character sequences that can
follow a just-closed value inside a serialized JSON value, indexed by the
stack of still-open frames.  (It is deliberately closed under more than the
grammar allows; only the scan and quote-parity invariants matter.) -/
inductive Cont : List Frame → List Char → Prop where
  | nil : Cont [] []
  | closeArr {fs : List Frame} {k : List Char} :
      Cont fs k → Cont (.arrF :: fs) (']' :: k)
  | closeObj {fs : List Frame} {k : List Char} :
      Cont fs k → Cont (.objF :: fs) ('\x7d' :: k)
  | comma {fs : List Frame} {k : List Char} :
      Cont fs k → Cont fs (',' :: k)
  | value {fs : List Frame} {k : List Char} (v : Json) :
      plainJson v = true → Cont fs k → Cont fs (strJson v ++ k)
  | keystr {fs : List Frame} {k : List Char} (s : List Char) :
      plainStr s = true → Cont fs k → Cont fs ('"' :: s ++ '"' :: k)
  | colonVal {fs : List Frame} {k : List Char} (v : Json) :
      plainJson v = true → Cont (.objF :: fs) k →
      Cont (.objF :: fs) (':' :: strJson v ++ k)

lemma digitChar_toNat (d : Nat) (h : d < 10) :
    (Char.ofNat (48 + d)).toNat = 48 + d := by
  unfold Char.ofNat
  rw [dif_pos]
  · rfl
  · constructor
    omega

lemma numChars_range (n : Nat) :
    ∀ c ∈ numChars n, 48 ≤ c.toNat ∧ c.toNat ≤ 57 := by
  intro c hc
  unfold numChars at hc
  by_cases h0 : n = 0
  · rw [if_pos h0] at hc
    rcases List.mem_singleton.mp hc with rfl
    decide
  · rw [if_neg h0] at hc
    rcases List.mem_map.mp hc with ⟨d, hd, rfl⟩
    have hd10 : d < 10 :=
      Nat.digits_lt_base (by norm_num) (List.mem_reverse.mp hd)
    rw [digitChar_toNat d hd10]
    omega

lemma numChars_ne_nil (n : Nat) : numChars n ≠ [] := by
  unfold numChars
  by_cases h0 : n = 0
  · simp [h0]
  · rw [if_neg h0]
    simp only [ne_eq, List.map_eq_nil_iff, List.reverse_eq_nil_iff]
    exact Nat.digits_ne_nil_iff_ne_zero.mpr h0

lemma numChars_injective (n m : Nat) (h : numChars n = numChars m) : n = m := by
  unfold numChars at h
  by_cases hn : n = 0 <;> by_cases hm : m = 0
  · omega
  · rw [if_pos hn, if_neg hm] at h
    exfalso
    have h' := congrArg (fun l => l.map Char.toNat) h
    simp only [List.map_map, List.map_cons, List.map_nil] at h'
    have hmem : ∀ x ∈ (Nat.digits 10 m).reverse.map
        (fun d => (Char.ofNat (48 + d)).toNat), x = 48 + 0 → True := by
      intro x _ _; trivial
    -- the digit list of m is a singleton [0], contradicting ofDigits
    have : (Nat.digits 10 m).reverse.map
        (fun d => (Char.ofNat (48 + d)).toNat) = [48] := by
      simpa using h'.symm
    have hdig : (Nat.digits 10 m).reverse = [0] := by
      cases hrev : (Nat.digits 10 m).reverse with
      | nil => simp [hrev] at this
      | cons d t =>
        rw [hrev] at this
        cases t with
        | nil =>
          simp only [List.map_cons, List.map_nil, List.cons.injEq,
            and_true] at this
          have hd10 : d < 10 := Nat.digits_lt_base (by norm_num)
            (List.mem_reverse.mp (by rw [hrev]; exact List.mem_cons_self d []))
          rw [digitChar_toNat d hd10] at this
          have : d = 0 := by omega
          rw [this]
        | cons d₂ t₂ => simp at this
    have : Nat.digits 10 m = [0] := by
      have := congrArg List.reverse hdig
      simpa using this
    have hm0 : m = 0 := by
      have := congrArg (Nat.ofDigits 10) this
      rw [Nat.ofDigits_digits] at this
      simpa using this
    exact hm hm0
  · rw [if_neg hn, if_pos hm] at h
    exfalso
    have h' := congrArg (fun l => l.map Char.toNat) h
    simp only [List.map_map, List.map_cons, List.map_nil] at h'
    have : (Nat.digits 10 n).reverse.map
        (fun d => (Char.ofNat (48 + d)).toNat) = [48] := by
      simpa using h'
    have hdig : (Nat.digits 10 n).reverse = [0] := by
      cases hrev : (Nat.digits 10 n).reverse with
      | nil => simp [hrev] at this
      | cons d t =>
        rw [hrev] at this
        cases t with
        | nil =>
          simp only [List.map_cons, List.map_nil, List.cons.injEq,
            and_true] at this
          have hd10 : d < 10 := Nat.digits_lt_base (by norm_num)
            (List.mem_reverse.mp (by rw [hrev]; exact List.mem_cons_self d []))
          rw [digitChar_toNat d hd10] at this
          have : d = 0 := by omega
          rw [this]
        | cons d₂ t₂ => simp at this
    have : Nat.digits 10 n = [0] := by
      have := congrArg List.reverse hdig
      simpa using this
    have hn0 : n = 0 := by
      have := congrArg (Nat.ofDigits 10) this
      rw [Nat.ofDigits_digits] at this
      simpa using this
    exact hn hn0
  · rw [if_neg hn, if_neg hm] at h
    have h' := congrArg (fun l => (l.map Char.toNat).reverse) h
    simp only [List.map_map, Function.comp_def] at h'
    have hmapn : ∀ (p : Nat), p ≠ 0 →
        ((Nat.digits 10 p).reverse.map
          (fun d => (Char.ofNat (48 + d)).toNat)).reverse =
        (Nat.digits 10 p).map (fun d => 48 + d) := by
      intro p hp
      rw [← List.map_reverse, List.reverse_reverse]
      apply List.map_congr_left
      intro d hd
      exact digitChar_toNat d (Nat.digits_lt_base (by norm_num) hd)
    rw [hmapn n hn, hmapn m hm] at h'
    have hdig : Nat.digits 10 n = Nat.digits 10 m := by
      have hinj : Function.Injective (fun d : Nat => 48 + d) := fun x y hxy => by
        simpa using hxy
      exact List.map_injective_iff.mpr hinj h'
    have := congrArg (Nat.ofDigits 10) hdig
    rwa [Nat.ofDigits_digits, Nat.ofDigits_digits] at this

lemma numChars_no_colon (n : Nat) : ∀ c ∈ numChars n, c ≠ ':' := by
  intro c hc heq
  have h2 := numChars_range n c hc
  rw [heq] at h2
  exact absurd h2 (by decide)

lemma scan_append (a b : List Char) (st : ScanSt) :
    scan (a ++ b) st = scan b (scan a st) :=
  List.foldl_append scanChar st a b

lemma scan_cons (c : Char) (l : List Char) (st : ScanSt) :
    scan (c :: l) st = scan l (scanChar st c) := rfl

lemma scan_nil (st : ScanSt) : scan [] st = st := rfl

lemma scanChar_inStr (d : Int) (c : Char) (h : c ≠ '"') :
    scanChar ⟨true, d⟩ c = ⟨true, d⟩ := by
  simp [scanChar, h]

lemma scanChar_quiet (d : Int) (c : Char) (h2 : c ≠ '"')
    (h3 : ¬(c = '[' ∨ c = '\x7b')) (h4 : ¬(c = ']' ∨ c = '\x7d')) :
    scanChar ⟨false, d⟩ c = ⟨false, d⟩ := by
  simp [scanChar, h2, h3, h4]

lemma scan_inStr (s : List Char) (h : ∀ c ∈ s, c ≠ '"') (d : Int) :
    scan s ⟨true, d⟩ = ⟨true, d⟩ := by
  induction s with
  | nil => rfl
  | cons c t ih =>
    rw [scan_cons, scanChar_inStr d c (h c (List.mem_cons_self c t))]
    exact ih (fun x hx => h x (List.mem_cons_of_mem c hx))

lemma scan_quiet (s : List Char)
    (h : ∀ c ∈ s, c ≠ '"' ∧ ¬(c = '[' ∨ c = '\x7b') ∧
      ¬(c = ']' ∨ c = '\x7d')) (d : Int) :
    scan s ⟨false, d⟩ = ⟨false, d⟩ := by
  induction s with
  | nil => rfl
  | cons c t ih =>
    obtain ⟨h2, h3, h4⟩ := h c (List.mem_cons_self c t)
    rw [scan_cons, scanChar_quiet d c h2 h3 h4]
    exact ih (fun x hx => h x (List.mem_cons_of_mem c hx))

lemma plainStr_no_quote {s : List Char} (h : plainStr s = true) :
    ∀ c ∈ s, c ≠ '"' := by
  intro c hc heq
  have := List.all_eq_true.mp h c hc
  rw [heq] at this
  simp at this

lemma scan_numChars (n : Nat) (d : Int) :
    scan (numChars n) ⟨false, d⟩ = ⟨false, d⟩ := by
  apply scan_quiet
  intro c hc
  have hr := numChars_range n c hc
  refine ⟨?_, ?_, ?_⟩
  · intro h
    rw [h] at hr
    exact absurd hr (by decide)
  · rintro (h | h) <;> (rw [h] at hr; exact absurd hr (by decide))
  · rintro (h | h) <;> (rw [h] at hr; exact absurd hr (by decide))

mutual
theorem scan_strJson : ∀ j : Json, plainJson j = true → ∀ d : Int,
    scan (strJson j) ⟨false, d⟩ = ⟨false, d⟩
  | .null, _, d => by
    apply scan_quiet
    intro c hc
    fin_cases hc <;> refine ⟨by decide, by decide, by decide⟩
  | .bool true, _, d => by
    apply scan_quiet
    intro c hc
    fin_cases hc <;> refine ⟨by decide, by decide, by decide⟩
  | .bool false, _, d => by
    apply scan_quiet
    intro c hc
    fin_cases hc <;> refine ⟨by decide, by decide, by decide⟩
  | .num n, _, d => scan_numChars n d
  | .str s, h, d => by
    have hq : ∀ c ∈ s, c ≠ '"' := plainStr_no_quote
      (show plainStr s = true by simpa [plainJson] using h)
    rw [strJson, scan_append, scan_cons '"' s]
    have h1 : scanChar ⟨false, d⟩ '"' = ⟨true, d⟩ := by simp [scanChar]
    rw [h1, scan_inStr s hq d]
    simp [scan, scanChar]
  | .arr es, h, d => by
    have hp : plainList es = true := by simpa [plainJson] using h
    rw [strJson, scan_append, scan_cons '[' (strList es)]
    have h1 : scanChar ⟨false, d⟩ '[' = ⟨false, d + 1⟩ := by simp [scanChar]
    rw [h1, scan_strList es hp (d + 1)]
    simp [scan, scanChar]
  | .obj fs, h, d => by
    have hp : plainFields fs = true := by simpa [plainJson] using h
    rw [strJson, scan_append, scan_cons '\x7b' (strFields fs)]
    have h1 : scanChar ⟨false, d⟩ '\x7b' = ⟨false, d + 1⟩ := by simp [scanChar]
    rw [h1, scan_strFields fs hp (d + 1)]
    simp [scan, scanChar]

theorem scan_strList : ∀ es : JsonList, plainList es = true → ∀ d : Int,
    scan (strList es) ⟨false, d⟩ = ⟨false, d⟩
  | .nil, _, d => rfl
  | .cons h₁ .nil, h, d => by
    have hp : plainJson h₁ = true := by
      simp only [plainList, Bool.and_eq_true] at h
      exact h.1
    rw [strList]
    exact scan_strJson h₁ hp d
  | .cons h₁ (.cons h₂ t), h, d => by
    simp only [plainList, Bool.and_eq_true] at h
    rw [strList, scan_append, scan_strJson h₁ h.1 d, scan_cons]
    have hcomma : scanChar ⟨false, d⟩ ',' = ⟨false, d⟩ := by simp [scanChar]
    rw [hcomma]
    exact scan_strList (.cons h₂ t) (by
      simp only [plainList, Bool.and_eq_true]
      exact h.2) d

theorem scan_strFields : ∀ fs : JsonFields, plainFields fs = true →
    ∀ d : Int, scan (strFields fs) ⟨false, d⟩ = ⟨false, d⟩
  | .fnil, _, d => rfl
  | .fcons k v .fnil, h, d => by
    simp only [plainFields, Bool.and_eq_true] at h
    rw [strFields, scan_append, scan_cons '"' k]
    have h1 : scanChar ⟨false, d⟩ '"' = ⟨true, d⟩ := by simp [scanChar]
    rw [h1, scan_inStr k (plainStr_no_quote h.1.1) d,
      scan_cons '"' (':' :: strJson v)]
    have h2 : scanChar ⟨true, d⟩ '"' = ⟨false, d⟩ := by simp [scanChar]
    rw [h2, scan_cons ':' (strJson v)]
    have h3 : scanChar ⟨false, d⟩ ':' = ⟨false, d⟩ := by simp [scanChar]
    rw [h3]
    exact scan_strJson v h.1.2 d
  | .fcons k v (.fcons k₂ v₂ t), h, d => by
    simp only [plainFields, Bool.and_eq_true] at h
    rw [strFields, scan_append, scan_append, scan_cons '"' k]
    have h1 : scanChar ⟨false, d⟩ '"' = ⟨true, d⟩ := by simp [scanChar]
    rw [h1, scan_inStr k (plainStr_no_quote h.1.1) d,
      scan_cons '"' (':' :: strJson v)]
    have h2 : scanChar ⟨true, d⟩ '"' = ⟨false, d⟩ := by simp [scanChar]
    rw [h2, scan_cons ':' (strJson v)]
    have h3 : scanChar ⟨false, d⟩ ':' = ⟨false, d⟩ := by simp [scanChar]
    rw [h3, scan_strJson v h.1.2 d,
      scan_cons ',' (strFields (JsonFields.fcons k₂ v₂ t))]
    have h4 : scanChar ⟨false, d⟩ ',' = ⟨false, d⟩ := by simp [scanChar]
    rw [h4]
    exact scan_strFields (.fcons k₂ v₂ t) (by
      simp only [plainFields, Bool.and_eq_true]
      exact ⟨h.2.1, h.2.2⟩) d
end

lemma countQuote_append (a b : List Char) :
    countQuote (a ++ b) = countQuote a + countQuote b :=
  List.count_append '"' a b

lemma countQuote_cons_ne (c : Char) (l : List Char) (h : c ≠ '"') :
    countQuote (c :: l) = countQuote l := by
  simp [countQuote, List.count_cons, h]

lemma countQuote_cons_quote (l : List Char) :
    countQuote ('"' :: l) = countQuote l + 1 := by
  simp [countQuote, List.count_cons]

lemma countQuote_plainStr {s : List Char} (h : plainStr s = true) :
    countQuote s = 0 :=
  List.count_eq_zero.mpr (fun hmem => plainStr_no_quote h '"' hmem rfl)

lemma countQuote_numChars (n : Nat) : countQuote (numChars n) = 0 := by
  apply List.count_eq_zero.mpr
  intro hmem
  have := numChars_range n '"' hmem
  exact absurd this (by decide)

mutual
theorem countQuote_strJson : ∀ j : Json, plainJson j = true →
    countQuote (strJson j) % 2 = 0
  | .null, _ => by decide
  | .bool true, _ => by decide
  | .bool false, _ => by decide
  | .num n, _ => by rw [strJson, countQuote_numChars]
  | .str s, h => by
    have hp : plainStr s = true := by simpa [plainJson] using h
    rw [strJson, countQuote_append, countQuote_cons_quote,
      countQuote_plainStr hp]
    decide
  | .arr es, h => by
    have hp : plainList es = true := by simpa [plainJson] using h
    rw [strJson, countQuote_append, countQuote_cons_ne '[' _ (by decide)]
    have h1 : countQuote [']'] = 0 := by decide
    rw [h1]
    simpa using countQuote_strList es hp
  | .obj fs, h => by
    have hp : plainFields fs = true := by simpa [plainJson] using h
    rw [strJson, countQuote_append, countQuote_cons_ne '\x7b' _ (by decide)]
    have h1 : countQuote ['\x7d'] = 0 := by decide
    rw [h1]
    simpa using countQuote_strFields fs hp

theorem countQuote_strList : ∀ es : JsonList, plainList es = true →
    countQuote (strList es) % 2 = 0
  | .nil, _ => by decide
  | .cons h₁ .nil, h => by
    simp only [plainList, Bool.and_eq_true] at h
    rw [strList]
    exact countQuote_strJson h₁ h.1
  | .cons h₁ (.cons h₂ t), h => by
    simp only [plainList, Bool.and_eq_true] at h
    rw [strList, countQuote_append, countQuote_cons_ne ',' _ (by decide)]
    have e1 := countQuote_strJson h₁ h.1
    have e2 := countQuote_strList (.cons h₂ t) (by
      simp only [plainList, Bool.and_eq_true]; exact h.2)
    omega

theorem countQuote_strFields : ∀ fs : JsonFields, plainFields fs = true →
    countQuote (strFields fs) % 2 = 0
  | .fnil, _ => by decide
  | .fcons k v .fnil, h => by
    simp only [plainFields, Bool.and_eq_true] at h
    rw [strFields, countQuote_append, countQuote_cons_quote,
      countQuote_plainStr h.1.1, countQuote_cons_quote,
      countQuote_cons_ne ':' _ (by decide)]
    have e1 := countQuote_strJson v h.1.2
    omega
  | .fcons k v (.fcons k₂ v₂ t), h => by
    simp only [plainFields, Bool.and_eq_true] at h
    rw [strFields, countQuote_append, countQuote_append,
      countQuote_cons_quote, countQuote_plainStr h.1.1,
      countQuote_cons_quote, countQuote_cons_ne ':' _ (by decide),
      countQuote_cons_ne ',' _ (by decide)]
    have e1 := countQuote_strJson v h.1.2
    have e2 := countQuote_strFields (.fcons k₂ v₂ t) (by
      simp only [plainFields, Bool.and_eq_true]; exact ⟨h.2.1, h.2.2⟩)
    omega
end

lemma strJson_ne_nil (j : Json) : strJson j ≠ [] := by
  cases j with
  | null => simp [strJson]
  | bool b => cases b <;> simp [strJson]
  | num n => exact numChars_ne_nil n
  | str s => simp [strJson]
  | arr es => simp [strJson]
  | obj fs => simp [strJson]

lemma cont_scan {fs : List Frame} {k : List Char} (h : Cont fs k) :
    ∀ d : Int, scan k ⟨false, d⟩ = ⟨false, d - fs.length⟩ := by
  induction h with
  | nil => intro d; simp [scan_nil]
  | closeArr _ ih =>
    intro d
    rw [scan_cons]
    have h1 : scanChar ⟨false, d⟩ ']' = ⟨false, d - 1⟩ := by simp [scanChar]
    rw [h1, ih (d - 1)]
    simp only [List.length_cons]
    congr 1
    push_cast
    ring
  | closeObj _ ih =>
    intro d
    rw [scan_cons]
    have h1 : scanChar ⟨false, d⟩ '\x7d' = ⟨false, d - 1⟩ := by
      simp [scanChar]
    rw [h1, ih (d - 1)]
    simp only [List.length_cons]
    congr 1
    push_cast
    ring
  | comma _ ih =>
    intro d
    rw [scan_cons]
    have h1 : scanChar ⟨false, d⟩ ',' = ⟨false, d⟩ := by simp [scanChar]
    rw [h1, ih d]
  | value v hv _ ih =>
    intro d
    rw [scan_append, scan_strJson v hv d, ih d]
  | keystr s hs _ ih =>
    intro d
    rename_i k' hcont
    rw [scan_append, scan_cons '"' s]
    have h1 : scanChar ⟨false, d⟩ '"' = ⟨true, d⟩ := by simp [scanChar]
    rw [h1, scan_inStr s (plainStr_no_quote hs) d, scan_cons '"' k']
    have h2 : scanChar ⟨true, d⟩ '"' = ⟨false, d⟩ := by simp [scanChar]
    rw [h2, ih d]
  | colonVal v hv _ ih =>
    intro d
    rw [scan_append, scan_cons ':' (strJson v)]
    have h1 : scanChar ⟨false, d⟩ ':' = ⟨false, d⟩ := by simp [scanChar]
    rw [h1, scan_strJson v hv d, ih d]

lemma cont_countQuote {fs : List Frame} {k : List Char} (h : Cont fs k) :
    countQuote k % 2 = 0 := by
  induction h with
  | nil => decide
  | closeArr _ ih => rwa [countQuote_cons_ne ']' _ (by decide)]
  | closeObj _ ih => rwa [countQuote_cons_ne '\x7d' _ (by decide)]
  | comma _ ih => rwa [countQuote_cons_ne ',' _ (by decide)]
  | value v hv _ ih =>
    rw [countQuote_append]
    have := countQuote_strJson v hv
    omega
  | keystr s hs _ ih =>
    rw [countQuote_append, countQuote_cons_quote, countQuote_plainStr hs,
      countQuote_cons_quote]
    omega
  | colonVal v hv _ ih =>
    rw [countQuote_append, countQuote_cons_ne ':' _ (by decide)]
    have := countQuote_strJson v hv
    omega

theorem contList : ∀ es : JsonList, plainList es = true →
    ∀ (fs : List Frame) (k : List Char), Cont fs k →
      Cont (.arrF :: fs) (strList es ++ ']' :: k)
  | .nil, _, fs, k, hk => by
    rw [strList, List.nil_append]
    exact Cont.closeArr hk
  | .cons h₁ .nil, h, fs, k, hk => by
    simp only [plainList, Bool.and_eq_true] at h
    rw [strList]
    exact Cont.value h₁ h.1 (Cont.closeArr hk)
  | .cons h₁ (.cons h₂ t₂), h, fs, k, hk => by
    simp only [plainList, Bool.and_eq_true] at h
    rw [strList, List.append_assoc]
    refine Cont.value h₁ h.1 ?_
    rw [List.cons_append]
    exact Cont.comma (contList (.cons h₂ t₂) (by
      simp only [plainList, Bool.and_eq_true]; exact h.2) fs k hk)

theorem contFields : ∀ ft : JsonFields, plainFields ft = true →
    ∀ (fs : List Frame) (k : List Char), Cont fs k →
      Cont (.objF :: fs) (strFields ft ++ '\x7d' :: k)
  | .fnil, _, fs, k, hk => by
    rw [strFields, List.nil_append]
    exact Cont.closeObj hk
  | .fcons key v .fnil, h, fs, k, hk => by
    simp only [plainFields, Bool.and_eq_true] at h
    rw [strFields]
    have heq : ('"' :: key ++ '"' :: ':' :: strJson v) ++ '\x7d' :: k =
        ('"' :: key) ++ '"' :: ((':' :: strJson v) ++ '\x7d' :: k) := by
      simp
    rw [heq]
    exact Cont.keystr key h.1.1
      (Cont.colonVal v h.1.2 (Cont.closeObj hk))
  | .fcons key v (.fcons k₂ v₂ t₂), h, fs, k, hk => by
    simp only [plainFields, Bool.and_eq_true] at h
    rw [strFields]
    have heq : (('"' :: key ++ '"' :: ':' :: strJson v) ++
        ',' :: strFields (.fcons k₂ v₂ t₂)) ++ '\x7d' :: k =
        ('"' :: key) ++ '"' :: ((':' :: strJson v) ++
          ',' :: (strFields (.fcons k₂ v₂ t₂) ++ '\x7d' :: k)) := by
      simp
    rw [heq]
    exact Cont.keystr key h.1.1
      (Cont.colonVal v h.1.2 (Cont.comma (contFields (.fcons k₂ v₂ t₂) (by
        simp only [plainFields, Bool.and_eq_true]
        exact ⟨h.2.1, h.2.2⟩) fs k hk)))

/-- The first possible shape of the text after a colon inside a serialized
plain JSON value: a serialized value followed by a continuation with at least
one pending frame (the colon was a key/value separator). -/
def ColonValueTail (b : List Char) : Prop :=
  ∃ (v : Json) (fs : List Frame) (k : List Char),
    plainJson v = true ∧ Cont fs k ∧ fs ≠ [] ∧ b = strJson v ++ k

/-- The second possible shape: the rest of a string literal up to its closing
quote, then a continuation (the colon was inside a string). -/
def ColonStringTail (b : List Char) : Prop :=
  ∃ (e : List Char) (fs : List Frame) (k : List Char),
    (∀ c ∈ e, c ≠ '"') ∧ Cont fs k ∧ b = e ++ '"' :: k

lemma split_colon_free (x k a b : List Char) (hx : ∀ c ∈ x, c ≠ ':')
    (h : x ++ k = a ++ ':' :: b) :
    ∃ a', a = x ++ a' ∧ k = a' ++ ':' :: b := by
  rcases List.append_eq_append_iff.mp h with ⟨m, hm1, hm2⟩ | ⟨m, hm1, hm2⟩
  · exact ⟨m, hm1, hm2⟩
  · cases m with
    | nil =>
      refine ⟨[], by simpa using hm1.symm, by simpa using hm2.symm⟩
    | cons c m' =>
      exfalso
      have hc : ':' = c := by
        have : ':' :: b = c :: (m' ++ k) := by simpa using hm2
        exact (List.cons.injEq _ _ _ _).mp this |>.1
      have hcx : c ∈ x := by
        rw [hm1]
        exact List.mem_append_right a (List.mem_cons_self c m')
      exact hx c hcx hc.symm

lemma strJson_atom_no_colon :
    (∀ c ∈ strJson Json.null, c ≠ ':') ∧
    (∀ c ∈ strJson (Json.bool true), c ≠ ':') ∧
    (∀ c ∈ strJson (Json.bool false), c ≠ ':') := by
  refine ⟨?_, ?_, ?_⟩ <;> (intro c hc; fin_cases hc <;> decide)

lemma ccMaster : ∀ N : Nat,
    (∀ (j : Json) (fs : List Frame) (k₀ : List Char),
      plainJson j = true → Cont fs k₀ →
      ∀ a b, strJson j ++ k₀ = a ++ ':' :: b →
        (strJson j ++ k₀).length ≤ N →
        ColonValueTail b ∨ ColonStringTail b) ∧
    (∀ (fs : List Frame) (x : List Char), Cont fs x →
      ∀ a b, x = a ++ ':' :: b → x.length ≤ N →
        ColonValueTail b ∨ ColonStringTail b) := by
  intro N
  induction N with
  | zero =>
    constructor
    · intro j fs k₀ _ _ a b heq hlen
      rw [heq, List.length_append] at hlen
      simp at hlen
    · intro fs x _ a b heq hlen
      rw [heq, List.length_append] at hlen
      simp at hlen
  | succ N ihN =>
    obtain ⟨ih1, ih2⟩ := ihN
    have part1 : ∀ (j : Json) (fs : List Frame) (k₀ : List Char),
        plainJson j = true → Cont fs k₀ →
        ∀ a b, strJson j ++ k₀ = a ++ ':' :: b →
        (strJson j ++ k₀).length ≤ N + 1 →
        ColonValueTail b ∨ ColonStringTail b := by
      intro j fs k₀ hpj hcont a b heq hlen
      rw [List.length_append] at hlen
      cases j with
      | null =>
        obtain ⟨a', _, hk⟩ := split_colon_free (strJson .null) k₀ a b
          strJson_atom_no_colon.1 heq
        refine ih2 fs k₀ hcont a' b hk ?_
        have h4 : (strJson Json.null).length = 4 := rfl
        omega
      | bool bv =>
        cases bv with
        | true =>
          obtain ⟨a', _, hk⟩ := split_colon_free (strJson (.bool true)) k₀ a b
            strJson_atom_no_colon.2.1 heq
          refine ih2 fs k₀ hcont a' b hk ?_
          have h4 : (strJson (Json.bool true)).length = 4 := rfl
          omega
        | false =>
          obtain ⟨a', _, hk⟩ := split_colon_free (strJson (.bool false)) k₀ a b
            strJson_atom_no_colon.2.2 heq
          refine ih2 fs k₀ hcont a' b hk ?_
          have h5 : (strJson (Json.bool false)).length = 5 := rfl
          omega
      | num n =>
        obtain ⟨a', _, hk⟩ := split_colon_free (strJson (.num n)) k₀ a b
          (numChars_no_colon n) heq
        refine ih2 fs k₀ hcont a' b hk ?_
        have h1 : 1 ≤ (strJson (Json.num n)).length := by
          rw [strJson]
          exact List.length_pos.mpr (numChars_ne_nil n)
        omega
      | str s =>
        have hps : plainStr s = true := by simpa [plainJson] using hpj
        have heq' : '"' :: (s ++ '"' :: k₀) = a ++ ':' :: b := by
          rw [← heq, strJson]
          simp
        cases a with
        | nil => simp at heq'
        | cons a0 a' =>
          rw [List.cons_append] at heq'
          have h0 : a0 = '"' := ((List.cons.injEq _ _ _ _).mp heq').1.symm
          have htail : s ++ '"' :: k₀ = a' ++ ':' :: b :=
            ((List.cons.injEq _ _ _ _).mp heq').2
          rcases List.append_eq_append_iff.mp htail with ⟨m, hm1, hm2⟩ |
            ⟨m, hm1, hm2⟩
          · -- the colon is beyond the string: inside k₀
            cases m with
            | nil => simp at hm2
            | cons c m' =>
              have hc : '"' = c := ((List.cons.injEq _ _ _ _).mp hm2).1
              have hk : k₀ = m' ++ ':' :: b :=
                ((List.cons.injEq _ _ _ _).mp hm2).2
              refine ih2 fs k₀ hcont m' b hk ?_
              have h2 : (strJson (Json.str s)).length = s.length + 2 := by
                rw [strJson]
                simp
              omega
          · -- the colon is inside the string literal
            cases m with
            | nil => simp at hm2
            | cons c m' =>
              have hc : ':' = c := ((List.cons.injEq _ _ _ _).mp hm2).1
              have hb : b = m' ++ '"' :: k₀ := by
                have := ((List.cons.injEq _ _ _ _).mp hm2).2
                simpa using this
              right
              refine ⟨m', fs, k₀, ?_, hcont, hb⟩
              intro c' hc'
              refine plainStr_no_quote hps c' ?_
              rw [hm1]
              exact List.mem_append_right a'
                (List.mem_cons_of_mem c hc')
      | arr es =>
        have hpe : plainList es = true := by simpa [plainJson] using hpj
        have heq' : '[' :: (strList es ++ ']' :: k₀) = a ++ ':' :: b := by
          rw [← heq, strJson]
          simp
        cases a with
        | nil => simp at heq'
        | cons a0 a' =>
          rw [List.cons_append] at heq'
          have htail : strList es ++ ']' :: k₀ = a' ++ ':' :: b :=
            ((List.cons.injEq _ _ _ _).mp heq').2
          refine ih2 (.arrF :: fs) (strList es ++ ']' :: k₀)
            (contList es hpe fs k₀ hcont) a' b htail ?_
          have h2 : (strJson (Json.arr es)).length =
              (strList es ++ ']' :: k₀).length - k₀.length + 1 := by
            rw [strJson]
            simp
            omega
          rw [List.length_append] at h2 ⊢
          simp only [List.length_cons] at h2 ⊢
          omega
      | obj ofs =>
        have hpf : plainFields ofs = true := by simpa [plainJson] using hpj
        have heq' : '\x7b' :: (strFields ofs ++ '\x7d' :: k₀) =
            a ++ ':' :: b := by
          rw [← heq, strJson]
          simp
        cases a with
        | nil => simp at heq'
        | cons a0 a' =>
          rw [List.cons_append] at heq'
          have htail : strFields ofs ++ '\x7d' :: k₀ = a' ++ ':' :: b :=
            ((List.cons.injEq _ _ _ _).mp heq').2
          refine ih2 (.objF :: fs) (strFields ofs ++ '\x7d' :: k₀)
            (contFields ofs hpf fs k₀ hcont) a' b htail ?_
          have h2 : (strJson (Json.obj ofs)).length =
              (strFields ofs ++ '\x7d' :: k₀).length - k₀.length + 1 := by
            rw [strJson]
            simp
            omega
          rw [List.length_append] at h2 ⊢
          simp only [List.length_cons] at h2 ⊢
          omega
    have part2 : ∀ (fs : List Frame) (x : List Char), Cont fs x →
        ∀ a b, x = a ++ ':' :: b → x.length ≤ N + 1 →
        ColonValueTail b ∨ ColonStringTail b := by
      intro fs x hcont a b heq hlen
      cases hcont with
      | nil => simp at heq
      | closeArr hk =>
        rename_i fs' k'
        cases a with
        | nil => simp at heq
        | cons a0 a' =>
          rw [List.cons_append] at heq
          have htail : k' = a' ++ ':' :: b :=
            ((List.cons.injEq _ _ _ _).mp heq).2
          refine ih2 fs' k' hk a' b htail ?_
          simp only [List.length_cons] at hlen
          omega
      | closeObj hk =>
        rename_i fs' k'
        cases a with
        | nil => simp at heq
        | cons a0 a' =>
          rw [List.cons_append] at heq
          have htail : k' = a' ++ ':' :: b :=
            ((List.cons.injEq _ _ _ _).mp heq).2
          refine ih2 fs' k' hk a' b htail ?_
          simp only [List.length_cons] at hlen
          omega
      | comma hk =>
        rename_i k'
        cases a with
        | nil => simp at heq
        | cons a0 a' =>
          rw [List.cons_append] at heq
          have htail : k' = a' ++ ':' :: b :=
            ((List.cons.injEq _ _ _ _).mp heq).2
          refine ih2 fs k' hk a' b htail ?_
          simp only [List.length_cons] at hlen
          omega
      | value v hv hk =>
        rename_i k'
        exact part1 v fs k' hv hk a b heq hlen
      | keystr s hs hk =>
        rename_i k'
        have heq' : '"' :: (s ++ '"' :: k') = a ++ ':' :: b := by
          rw [← heq]
          simp
        cases a with
        | nil => simp at heq'
        | cons a0 a' =>
          rw [List.cons_append] at heq'
          have htail : s ++ '"' :: k' = a' ++ ':' :: b :=
            ((List.cons.injEq _ _ _ _).mp heq').2
          rcases List.append_eq_append_iff.mp htail with ⟨m, hm1, hm2⟩ |
            ⟨m, hm1, hm2⟩
          · cases m with
            | nil => simp at hm2
            | cons c m' =>
              have hk₂ : k' = m' ++ ':' :: b :=
                ((List.cons.injEq _ _ _ _).mp hm2).2
              refine ih2 fs k' hk m' b hk₂ ?_
              simp only [List.cons_append, List.length_cons,
                List.length_append] at hlen
              omega
          · cases m with
            | nil => simp at hm2
            | cons c m' =>
              have hb : b = m' ++ '"' :: k' := by
                have := ((List.cons.injEq _ _ _ _).mp hm2).2
                simpa using this
              right
              refine ⟨m', fs, k', ?_, hk, hb⟩
              intro c' hc'
              refine plainStr_no_quote hs c' ?_
              rw [hm1]
              exact List.mem_append_right a'
                (List.mem_cons_of_mem c hc')
      | colonVal v hv hk =>
        rename_i fs' k'
        cases a with
        | nil =>
          have hb : b = strJson v ++ k' := by
            have : ':' :: (strJson v ++ k') = ':' :: b := by
              rw [← List.cons_append]
              simpa using heq
            exact ((List.cons.injEq _ _ _ _).mp this).2.symm
          left
          exact ⟨v, .objF :: fs', k', hv, hk, by simp, hb⟩
        | cons a0 a' =>
          have heq' : ':' :: (strJson v ++ k') = a0 :: (a' ++ ':' :: b) := by
            rw [← List.cons_append]
            simpa using heq
          have htail : strJson v ++ k' = a' ++ ':' :: b :=
            ((List.cons.injEq _ _ _ _).mp heq').2
          refine ih1 v (.objF :: fs') k' hv hk a' b htail ?_
          simp only [List.cons_append, List.length_cons,
            List.length_append] at hlen ⊢
          omega
    exact ⟨part1, part2⟩

lemma not_colonValueTail_strJson (j : Json) (hp : plainJson j = true) :
    ¬ ColonValueTail (strJson j) := by
  rintro ⟨v, fs, k, hv, hk, hfs, heq⟩
  have hscan : scan (strJson j) ⟨false, 0⟩ = ⟨false, 0⟩ := scan_strJson j hp 0
  rw [heq, scan_append, scan_strJson v hv 0, cont_scan hk 0] at hscan
  have hdepth : (0 : Int) - fs.length = 0 :=
    congrArg ScanSt.depth hscan
  have : fs.length = 0 := by omega
  exact hfs (List.length_eq_zero.mp this)

lemma not_colonStringTail_strJson (j : Json) (hp : plainJson j = true) :
    ¬ ColonStringTail (strJson j) := by
  rintro ⟨e, fs, k, he, hk, heq⟩
  have hcount : countQuote (strJson j) % 2 = 0 := countQuote_strJson j hp
  have he0 : countQuote e = 0 :=
    List.count_eq_zero.mpr (fun hmem => he '"' hmem rfl)
  rw [heq, countQuote_append, countQuote_cons_quote, he0] at hcount
  have := cont_countQuote hk
  omega

lemma strJson_no_colon_suffix (j1 j2 : Json) (h1 : plainJson j1 = true)
    (h2 : plainJson j2 = true) (t : List Char)
    (heq : strJson j2 = t ++ ':' :: strJson j1) : False := by
  have hmain := (ccMaster (strJson j2 ++ []).length).1 j2 [] [] h2 Cont.nil
    t (strJson j1) (by simpa using heq) le_rfl
  rcases hmain with harm | harm
  · exact not_colonValueTail_strJson j1 h1 harm
  · exact not_colonStringTail_strJson j1 h1 harm

lemma last_colon_split (x y u v : List Char) (hu : ∀ c ∈ u, c ≠ ':')
    (hv : ∀ c ∈ v, c ≠ ':') (h : x ++ ':' :: u = y ++ ':' :: v) :
    x = y ∧ u = v := by
  rcases List.append_eq_append_iff.mp h with ⟨m, hm1, hm2⟩ | ⟨m, hm1, hm2⟩
  · cases m with
    | nil =>
      constructor
      · simpa using hm1.symm
      · simpa using hm2
    | cons c m' =>
      exfalso
      have hc : ':' = c := ((List.cons.injEq _ _ _ _).mp hm2).1
      have hmem : c ∈ ':' :: v := by
        have : u = m' ++ ':' :: v := ((List.cons.injEq _ _ _ _).mp hm2).2
        subst hc
        exact List.mem_cons_self ':' v
      have hcu : ':' ∈ u := by
        have hu' : u = m' ++ ':' :: v := ((List.cons.injEq _ _ _ _).mp hm2).2
        rw [hu']
        exact List.mem_append_right m' (List.mem_cons_self ':' v)
      exact hu ':' hcu rfl
  · cases m with
    | nil =>
      constructor
      · simpa using hm1
      · simpa using hm2.symm
    | cons c m' =>
      exfalso
      have hcv : ':' ∈ v := by
        have hv' : v = m' ++ ':' :: u := ((List.cons.injEq _ _ _ _).mp hm2).2
        rw [hv']
        exact List.mem_append_right m' (List.mem_cons_self ':' u)
      exact hv ':' hcv rfl

lemma common_suffix (x1 x2 s1 s2 : List Char) (h : x1 ++ s1 = x2 ++ s2)
    (hle : s1.length ≤ s2.length) :
    ∃ t, s2 = t ++ s1 ∧ x1 = x2 ++ t := by
  rcases List.append_eq_append_iff.mp h with ⟨m, hm1, hm2⟩ | ⟨m, hm1, hm2⟩
  · have hlen := congrArg List.length hm2
    rw [List.length_append] at hlen
    have hm0 : m = [] := List.length_eq_zero.mp (by omega)
    subst hm0
    refine ⟨[], by simpa using hm2.symm, by simpa using hm1.symm⟩
  · exact ⟨m, hm2, hm1⟩

lemma cacheKey_injective_aux (q1 q2 : List Char) (k1 k2 : Nat)
    (j1 j2 : Json) (h1 : plainJson j1 = true) (h2 : plainJson j2 = true)
    (hle : (strJson j1).length ≤ (strJson j2).length)
    (heq : ((q1 ++ ':' :: numChars k1) ++ [':']) ++ strJson j1 =
      ((q2 ++ ':' :: numChars k2) ++ [':']) ++ strJson j2) :
    q1 = q2 ∧ k1 = k2 ∧ strJson j1 = strJson j2 := by
  obtain ⟨t, hs2, hX⟩ := common_suffix _ _ _ _ heq hle
  cases t with
  | nil =>
    have hs : strJson j1 = strJson j2 := by simpa using hs2.symm
    have hX' : (q1 ++ ':' :: numChars k1) ++ [':'] =
        (q2 ++ ':' :: numChars k2) ++ [':'] := by simpa using hX
    have hX'' := List.append_cancel_right hX'
    obtain ⟨hq, hn⟩ := last_colon_split q1 q2 (numChars k1) (numChars k2)
      (numChars_no_colon k1) (numChars_no_colon k2) hX''
    exact ⟨hq, numChars_injective k1 k2 hn, hs⟩
  | cons c t' =>
    exfalso
    have hlast : ((q1 ++ ':' :: numChars k1) ++ [':']).getLast? = some ':' := by
      rw [List.getLast?_append]
      rfl
    have hlast2 : (((q2 ++ ':' :: numChars k2) ++ [':']) ++
        (c :: t')).getLast? = (c :: t').getLast? := by
      rw [List.getLast?_append]
      cases hgl : (c :: t').getLast? with
      | none => simp at hgl
      | some z => rfl
    rw [← hX] at hlast2
    have hglt : (c :: t').getLast? = some ':' := by
      rw [← hlast2, hlast]
    have hne : (c :: t') ≠ [] := by simp
    have hgl : (c :: t').getLast hne = ':' := by
      have := List.getLast?_eq_getLast (c :: t') hne
      rw [this] at hglt
      exact Option.some.inj hglt
    have hdecomp : (c :: t') = (c :: t').dropLast ++ [':'] := by
      conv_lhs => rw [← List.dropLast_append_getLast hne]
      rw [hgl]
    rw [hdecomp] at hs2
    have hs2' : strJson j2 = (c :: t').dropLast ++ ':' :: strJson j1 := by
      simpa [List.append_assoc] using hs2
    exact strJson_no_colon_suffix j1 j2 h1 h2 _ hs2'

/-- **C3** (confirmed).  The `/query` cache key is a deterministic function of
the tuple (query text, requested top-k, serialized filter) — it is literally
computed from it — and this function is injective: if two calls produce the
same key, then the query texts, the top-k values and the serialized filters
(after the `filter || {}` defaulting) all coincide.  Queries are arbitrary
character lists (they may contain colons, digits and braces); filters range
over JSON values in the modelled plain fragment. -/
theorem cacheKey_injective (q1 q2 : List Char) (k1 k2 : Nat)
    (f1 f2 : Option Json)
    (h1 : plainJson (f1.getD (Json.obj .fnil)) = true)
    (h2 : plainJson (f2.getD (Json.obj .fnil)) = true)
    (heq : cacheKey q1 k1 f1 = cacheKey q2 k2 f2) :
    q1 = q2 ∧ k1 = k2 ∧
      strJson (f1.getD (Json.obj .fnil)) =
        strJson (f2.getD (Json.obj .fnil)) := by
  have heq' : ((q1 ++ ':' :: numChars k1) ++ [':']) ++
      strJson (f1.getD (Json.obj .fnil)) =
      ((q2 ++ ':' :: numChars k2) ++ [':']) ++
      strJson (f2.getD (Json.obj .fnil)) := by
    have := heq
    unfold cacheKey at this
    have hcancel := List.append_cancel_left
      (show "query:".toList ++ (q1 ++ [':'] ++ numChars k1 ++ [':'] ++
          strJson (f1.getD (Json.obj .fnil))) =
        "query:".toList ++ (q2 ++ [':'] ++ numChars k2 ++ [':'] ++
          strJson (f2.getD (Json.obj .fnil))) from by
        simpa [List.append_assoc] using this)
    simpa [List.append_assoc] using hcancel
  rcases le_total (strJson (f1.getD (Json.obj .fnil))).length
      (strJson (f2.getD (Json.obj .fnil))).length with hle | hle
  · exact cacheKey_injective_aux q1 q2 k1 k2 _ _ h1 h2 hle heq'
  · obtain ⟨hq, hk, hs⟩ := cacheKey_injective_aux q2 q1 k2 k1 _ _ h2 h1 hle
      heq'.symm
    exact ⟨hq.symm, hk.symm, hs.symm⟩

/-- Witness for C3 at concrete equal keys. -/
theorem cacheKey_injective_witness :
    plainJson ((some (Json.obj (.fcons ['a'] (Json.str ['b']) .fnil))).getD
        (Json.obj .fnil)) = true ∧
    cacheKey ['x', ':', '5'] 7 (some (Json.obj (.fcons ['a']
        (Json.str ['b']) .fnil))) =
      cacheKey ['x', ':', '5'] 7 (some (Json.obj (.fcons ['a']
        (Json.str ['b']) .fnil))) ∧
    ((['x', ':', '5'] : List Char) = ['x', ':', '5'] ∧ 7 = 7 ∧
      strJson ((some (Json.obj (.fcons ['a'] (Json.str ['b'])
          .fnil))).getD (Json.obj .fnil)) =
        strJson ((some (Json.obj (.fcons ['a'] (Json.str ['b'])
          .fnil))).getD (Json.obj .fnil))) :=
  ⟨by decide, rfl,
    cacheKey_injective ['x', ':', '5'] ['x', ':', '5'] 7 7
      (some (Json.obj (.fcons ['a'] (Json.str ['b']) .fnil)))
      (some (Json.obj (.fcons ['a'] (Json.str ['b']) .fnil)))
      (by decide) (by decide) rfl⟩

end LiteRAG
